import Mathlib

/-!
# Portfolio page: typewriter driver, active-section tracker, clipboard acknowledgement

A shallow embedding of the behavioural code of `src/App.jsx`:

* `useTypewriter` (lines 13-37): the four React state cells, the effect body with its
  four branches, the effect cleanup (`clearTimeout`) and the host timer table;
* `App` (lines 907-928): the `IntersectionObserver` callback, activation and cleanup;
* `Footer` (lines 811-819): `handleCopy` and its reset timers;
* `Navbar` (lines 79-85) and the rendered regions: the ids the tracker state is compared
  with, and the `rootMargin` option of the observer (line 919).

JavaScript strings are sequences of UTF-16 code units; a phrase is a list of units.
JavaScript numbers that are counters (`charIdx`) are integers, delays are rationals
(`speed / 2` is an exact halving).
-/

namespace Portfolio

/-! ## Strings -/

/-- A JavaScript string, as the list of its code units. -/
abbrev JSString := List Char

/-- `s.substring(0, e)`: the end index is clamped to `[0, s.length]`. -/
def substring0 (s : JSString) (e : Int) : JSString :=
  s.take e.toNat

/-! ## useTypewriter -/

/-- The three callbacks `useTypewriter` hands to `setTimeout`. -/
inductive TimerCallback where
  /-- `() => setCharIdx((c) => c + 1)` -/
  | incChar
  /-- `() => setDeleting(true)` -/
  | startDeleting
  /-- `() => setCharIdx((c) => c - 1)` -/
  | decChar
  deriving DecidableEq, Repr

/-- An entry of the host timer table: handle returned by `setTimeout`, callback, delay. -/
structure Timer where
  handle : Nat
  callback : TimerCallback
  delay : ℚ
  deriving DecidableEq

/-- State of one mounted `useTypewriter`: the four `useState` cells, the host's pending
timers, the `timeout` variable captured by the cleanup closure of the last effect run,
the host's next timer handle, and whether the component is mounted. -/
structure TWState where
  display : JSString
  idx : Nat
  charIdx : Int
  deleting : Bool
  pending : List Timer
  timeout : Option Nat
  nextHandle : Nat
  mounted : Bool
  deriving DecidableEq

/-- State at mount: `useState("")`, `useState(0)`, `useState(0)`, `useState(false)`. -/
def TWState.init : TWState :=
  { display := [], idx := 0, charIdx := 0, deleting := false,
    pending := [], timeout := none, nextHandle := 0, mounted := true }

/-- `clearTimeout(h)`; `h` is `none` when the variable `timeout` is `undefined`. -/
def clearTimeout (h : Option Nat) (ts : List Timer) : List Timer :=
  match h with
  | none => ts
  | some k => ts.filter (fun t => t.handle != k)

/-- `timeout = setTimeout(cb, d)`. -/
def setTimeout (cb : TimerCallback) (d : ℚ) (s : TWState) : TWState :=
  { s with
    pending := s.pending ++ [{ handle := s.nextHandle, callback := cb, delay := d }]
    timeout := some s.nextHandle
    nextHandle := s.nextHandle + 1 }

/-- The cleanup returned by the effect: `() => clearTimeout(timeout)`. -/
def cleanup (s : TWState) : TWState :=
  { s with pending := clearTimeout s.timeout s.pending, timeout := none }

/-- The effect body (lines 20-32). `none` is the `TypeError` of reading
`current.length` when `texts[idx]` is `undefined`. -/
def effectBody (texts : List JSString) (speed pause : ℚ) (s : TWState) :
    Option TWState :=
  match texts[s.idx]? with
  | none => none
  | some current =>
    let len : Int := current.length
    let s1 : TWState :=
      if !s.deleting && decide (s.charIdx < len) then
        setTimeout .incChar speed s
      else if !s.deleting && decide (s.charIdx = len) then
        setTimeout .startDeleting pause s
      else if s.deleting && decide (s.charIdx > 0) then
        setTimeout .decChar (speed / 2) s
      else if s.deleting && decide (s.charIdx = 0) then
        { s with deleting := false, idx := (s.idx + 1) % texts.length }
      else s
    some { s1 with display := substring0 current s.charIdx }

/-- One run of the effect after a render: the previous run's cleanup, then the body. -/
def runEffect (texts : List JSString) (speed pause : ℚ) (s : TWState) :
    Option TWState :=
  effectBody texts speed pause (cleanup s)

/-- The state update performed by a timer callback. -/
def applyCallback (cb : TimerCallback) (s : TWState) : TWState :=
  match cb with
  | .incChar => { s with charIdx := s.charIdx + 1 }
  | .startDeleting => { s with deleting := true }
  | .decChar => { s with charIdx := s.charIdx - 1 }

/-- The host fires the pending timer `t`: it leaves the timer table and its callback runs. -/
def fire (t : Timer) (s : TWState) : TWState :=
  applyCallback t.callback { s with pending := s.pending.filter (fun u => u.handle != t.handle) }

/-- Unmount: the last effect's cleanup runs and no effect runs afterwards. -/
def teardown (s : TWState) : TWState :=
  { cleanup s with mounted := false }

/-- The events of a mounted typewriter. The effect may run after any render (the
dependency `texts` is a fresh array at the call site in `Hero`), a pending timer may
fire, and the component may be unmounted. -/
inductive Step (texts : List JSString) (speed pause : ℚ) : TWState → TWState → Prop where
  | effect {s s' : TWState} :
      s.mounted = true → runEffect texts speed pause s = some s' → Step texts speed pause s s'
  | fire {s : TWState} (t : Timer) :
      t ∈ s.pending → Step texts speed pause s (fire t s)
  | teardown {s : TWState} :
      s.mounted = true → Step texts speed pause s (teardown s)

/-- States reachable from the mount state. -/
inductive Reachable (texts : List JSString) (speed pause : ℚ) : TWState → Prop where
  | init : Reachable texts speed pause TWState.init
  | step {s s' : TWState} :
      Reachable texts speed pause s → Step texts speed pause s s' →
      Reachable texts speed pause s'

/-- The host fires the oldest pending timer, if there is one. -/
def fireNext (s : TWState) : TWState :=
  match s.pending with
  | [] => s
  | t :: _ => fire t s

/-- Delay of the oldest pending timer; `0` when nothing is pending. -/
def nextDelay (s : TWState) : ℚ :=
  match s.pending with
  | [] => 0
  | t :: _ => t.delay

/-- One transition of the machine: an effect run, then the firing of the timer it
scheduled (the advance branch schedules none). Returns the new state and the time that
elapsed. -/
def tickT (texts : List JSString) (speed pause : ℚ) (s : TWState) :
    Option (TWState × ℚ) :=
  (runEffect texts speed pause s).map (fun s' => (fireNext s', nextDelay s'))

/-- One transition of the machine, without the elapsed time. -/
def tick (texts : List JSString) (speed pause : ℚ) (s : TWState) : Option TWState :=
  (tickT texts speed pause s).map Prod.fst

/-- The state after `n` transitions from `s`, with the sum of the delays. -/
def runT (texts : List JSString) (speed pause : ℚ) : Nat → TWState → Option (TWState × ℚ)
  | 0, s => some (s, 0)
  | n + 1, s =>
    (tickT texts speed pause s).bind (fun p =>
      (runT texts speed pause n p.1).map (fun q => (q.1, p.2 + q.2)))

/-- The state after `n` transitions from `s`. -/
def run (texts : List JSString) (speed pause : ℚ) (n : Nat) (s : TWState) : Option TWState :=
  (runT texts speed pause n s).map Prod.fst

/-- What the hook returns to its caller once the effect of the current render has run:
the render that follows `runEffect`. -/
def shown (texts : List JSString) (speed pause : ℚ) (s : TWState) : Option JSString :=
  (runEffect texts speed pause s).map TWState.display

/-- A state shows a phrase in full: growing and `charIdx = texts[idx].length`. -/
def isFull (texts : List JSString) (s : TWState) : Bool :=
  match texts[s.idx]? with
  | none => false
  | some current => !s.deleting && decide (s.charIdx = (current.length : Int))

/-- The first `n` states of the run from `s`, one per transition. -/
def trace (texts : List JSString) (speed pause : ℚ) : Nat → TWState → List TWState
  | 0, _ => []
  | n + 1, s =>
    s :: (match tick texts speed pause s with
          | some s' => trace texts speed pause n s'
          | none => [])

/-- The string shown in `s` when `s` is a full-display state. -/
def fullShown (texts : List JSString) (speed pause : ℚ) (s : TWState) : Option JSString :=
  if isFull texts s then shown texts speed pause s else none

/-- The strings shown in the full-display states among the first `n` states after mount,
in the order in which they are visited. -/
def fullDisplays (texts : List JSString) (speed pause : ℚ) (n : Nat) : List JSString :=
  (trace texts speed pause n TWState.init).filterMap (fullShown texts speed pause)

/-- The quiescent state of the machine between two transitions: no timer pending,
phrase `i`, `c` characters shown, direction `d`. -/
def AtPos (s : TWState) (i : Nat) (c : Int) (d : Bool) : Prop :=
  s.pending = [] ∧ s.idx = i ∧ s.charIdx = c ∧ s.deleting = d

/-- Number of transitions the machine spends on its `j`-th phrase visit. -/
def phraseTicks (texts : List JSString) (j : Nat) : Nat :=
  2 * (texts.getD (j % texts.length) []).length + 2

/-- Number of transitions before the `k`-th phrase visit starts. -/
def ticksBefore (texts : List JSString) : Nat → Nat
  | 0 => 0
  | k + 1 => ticksBefore texts k + phraseTicks texts k

/-- The phrase list `["A", "BB"]`. -/
def phrasesAB : List JSString := [['A'], ['B', 'B']]

/-- The phrase list `["abc"]`, one phrase of length 3. -/
def phrasesABC : List JSString := [['a', 'b', 'c']]

/-- The state of `["A", "BB"]` after the first timer fired and before the effect re-ran:
`charIdx` is already 1, `display` is still the empty string. -/
def staleAB : TWState :=
  { display := [], idx := 0, charIdx := 1, deleting := false,
    pending := [], timeout := some 0, nextHandle := 1, mounted := true }

/-- The state of `["A", "BB"]` after three transitions: "A" has been typed and deleted,
the advance to "BB" is next. -/
def deletedAB : TWState :=
  { display := ['A'], idx := 0, charIdx := 0, deleting := true,
    pending := [], timeout := some 2, nextHandle := 3, mounted := true }

/-- The state of `["A", "BB"]` right after the first effect run: the first typing timer
is pending. -/
def typingAB : TWState :=
  { display := [], idx := 0, charIdx := 0, deleting := false,
    pending := [{ handle := 0, callback := .incChar, delay := 60 }],
    timeout := some 0, nextHandle := 1, mounted := true }

/-! ### Invariant of the reachable states -/

/-- What a pending timer says about the state it was scheduled in. -/
def TimerOk (current : JSString) (s : TWState) (t : Timer) : Prop :=
  s.timeout = some t.handle ∧ t.handle < s.nextHandle ∧
  match t.callback with
  | .incChar => s.deleting = false ∧ s.charIdx < (current.length : Int)
  | .startDeleting => s.deleting = false ∧ s.charIdx = (current.length : Int)
  | .decChar => s.deleting = true ∧ 0 < s.charIdx

/-- The invariant kept by every event of the typewriter. -/
structure Inv (texts : List JSString) (s : TWState) : Prop where
  idx_lt : s.idx < texts.length
  char_nonneg : 0 ≤ s.charIdx
  char_le : ∀ cur, texts[s.idx]? = some cur → s.charIdx ≤ (cur.length : Int)
  disp : ∀ cur, texts[s.idx]? = some cur → s.display <+: cur
  pend : s.pending = [] ∨ ∃ t, s.pending = [t] ∧ s.mounted = true ∧
    ∀ cur, texts[s.idx]? = some cur → TimerOk cur s t

/-! ## App: the active-section tracker -/

/-- The section registry (line 11). -/
def SECTIONS : List String := ["home", "experience", "projects", "skills", "achievements"]

/-- An `IntersectionObserverEntry`, reduced to what the callback reads:
`entry.isIntersecting` and `entry.target.id`. -/
structure Entry where
  isIntersecting : Bool
  targetId : String
  deriving DecidableEq, Repr

/-- State of `App` and of its observer: the `useState` cell `active` and the ids of the
elements the observer observes. -/
structure AppState where
  active : String
  observed : List String
  deriving DecidableEq, Repr

/-- State at mount, before the effect has run: `useState("home")`. -/
def AppState.init : AppState :=
  { active := "home", observed := [] }

/-- The state setter `setActive`. -/
def setActive (v : String) (s : AppState) : AppState :=
  { s with active := v }

/-- The observer callback (lines 912-918):
`entries.forEach((entry) => { if (entry.isIntersecting) setActive(entry.target.id) })`. -/
def observerCallback (entries : List Entry) (s : AppState) : AppState :=
  entries.foldl (fun st entry => if entry.isIntersecting then setActive entry.targetId st else st) s

/-- The call `observer.observe(el)`: a target already observed is not added again. -/
def observe (id : String) (s : AppState) : AppState :=
  if id ∈ s.observed then s else { s with observed := s.observed ++ [id] }

/-- The activation loop (lines 922-925); `rendered id` says whether
`document.getElementById(id)` finds an element. -/
def activate (rendered : String → Bool) (s : AppState) : AppState :=
  SECTIONS.foldl (fun st id => if rendered id then observe id st else st) s

/-- The effect cleanup (line 927): `observer.disconnect()` stops observing every target. -/
def effectCleanup (s : AppState) : AppState :=
  { s with observed := [] }

/-- The host delivers a batch: an observer reports entries of observed targets only. -/
def hostDeliver (entries : List Entry) (s : AppState) : AppState :=
  observerCallback (entries.filter (fun e => decide (e.targetId ∈ s.observed))) s

/-- The tracker with all five sections rendered and observed, at mount. -/
def trackerStart : AppState := activate (fun _ => true) AppState.init

/-! ## The lifetime of `App` -/

/-- The component `App` as React holds it: its state, and whether it is still mounted. -/
structure AppInstance where
  state : AppState
  mounted : Bool
  deriving DecidableEq, Repr

/-- The observer callback is invoked, by the host or by whoever still holds the closure.
React applies the `setActive` calls the callback makes while the component is mounted, and
discards a state update requested for a component that has been unmounted. -/
def AppInstance.invoke (entries : List Entry) (c : AppInstance) : AppInstance :=
  if c.mounted then { c with state := observerCallback entries c.state } else c

/-- Teardown of the tracker. The effect has the dependency list `[]` (line 928), so its
cleanup (line 927) runs when `App` unmounts and at no other time: the observer is
disconnected and the component is gone. -/
def AppInstance.teardown (c : AppInstance) : AppInstance :=
  { state := effectCleanup c.state, mounted := false }

/-- The mounted tracker with "experience" active and all five sections observed. -/
def experienceMounted : AppInstance :=
  { state := { active := "experience", observed := SECTIONS }, mounted := true }

/-! ## Footer: the clipboard acknowledgement -/

/-- State of `Footer`: the `useState` cell `copied` and the due times (in ms) of the
pending reset timers, oldest first. -/
structure FooterState where
  copied : Bool
  timers : List Nat
  deriving DecidableEq, Repr

/-- State at mount: `useState(false)`, no timer. -/
def FooterState.init : FooterState := { copied := false, timers := [] }

/-- The continuation of `handleCopy` (lines 815-818), run at time `now` when the promise of
`navigator.clipboard.writeText(email)` settles; `ok` says whether it was fulfilled. On
rejection no handler is registered and nothing runs. -/
def handleCopy (ok : Bool) (now : Nat) (s : FooterState) : FooterState :=
  if ok then { copied := true, timers := s.timers ++ [now + 2500] } else s

/-- A reset timer fires: `setCopied(false)`. -/
def fireReset (d : Nat) (s : FooterState) : FooterState :=
  { copied := false, timers := s.timers.erase d }

/-- The host fires, oldest first, every reset timer that is due at time `t`. -/
def fireDue (t : Nat) (s : FooterState) : FooterState :=
  (s.timers.filter (fun d => decide (d ≤ t))).foldl (fun st d => fireReset d st) s

/-- The Footer state at time `t`, after the copies `(time, ok)` (in time order) that
settled up to `t` and the timers due up to `t`. -/
def footerAt (copies : List (Nat × Bool)) (t : Nat) : FooterState :=
  fireDue t (copies.foldl
    (fun st c => if c.1 ≤ t then handleCopy c.2 c.1 (fireDue c.1 st) else st)
    FooterState.init)

/-! ## Navbar and the rendered regions -/

/-- The entries of `navItems` in `Navbar` (lines 79-85), as `(id, label)`. Each is rendered
as an anchor `#<id>` and is highlighted when `active === item.id`. -/
def navItems : List (String × String) :=
  [("home", "Home"), ("experience", "Experience"), ("projects", "Projects"),
   ("skills", "Skills"), ("achievements", "Achievements")]

/-- The `id` attributes of the regions `App` renders inside `main`, in document order:
`Hero` (line 199), `Experience` (453), `Projects` (561), `Skills` (691),
`Achievements` (777). -/
def regionIds : List String := ["home", "experience", "projects", "skills", "achievements"]

/-- The navigation entries that get the active treatment: `active === item.id`. -/
def highlighted (active : String) : List (String × String) :=
  navItems.filter (fun item => decide (active = item.1))

/-! ## Activation against the document -/

/-- The call `document.getElementById(id)` on a document whose elements have the ids
`rendered`: the element (known by its id) or `null`. -/
def getElementById (rendered : List String) (id : String) : Option String :=
  if id ∈ rendered then some id else none

/-- The call `observer.observe(el)` on what `getElementById` returned; observing `null`
throws a `TypeError`, here `none`. -/
def observeElement (el : Option String) (s : AppState) : Option AppState :=
  match el with
  | none => none
  | some id => some (observe id s)

/-- The activation loop (lines 922-925) with its `if (el)` guard, as a computation that
may throw. -/
def activateChecked (rendered : List String) (s : AppState) : Option AppState :=
  SECTIONS.foldlM
    (fun st id =>
      let el := getElementById rendered id
      if el.isSome then observeElement el st else some st)
    s

/-- What happens to a mounted page after activation: the host delivers a batch, or a
region with the given id is rendered later. -/
inductive TrackerEvent where
  | deliver (entries : List Entry)
  | create (id : String)

/-- The page: the ids of the rendered elements and the state of `App`. -/
structure Page where
  rendered : List String
  app : AppState

/-- Mount of `App` on a document with the elements `rendered`: the effect runs once
(dependency list `[]`). -/
def Page.mount (rendered : List String) : Page :=
  { rendered := rendered, app := activate (fun id => decide (id ∈ rendered)) AppState.init }

/-- One event on the page. Nothing re-runs the activation. -/
def Page.step (p : Page) : TrackerEvent → Page
  | .deliver entries => { p with app := hostDeliver entries p.app }
  | .create id => { p with rendered := id :: p.rendered }

/-- A sequence of events on the page. -/
def Page.run (p : Page) (events : List TrackerEvent) : Page :=
  events.foldl Page.step p

/-- An event that cannot change `active`: a batch without an intersecting entry, or the
creation of a region. -/
def TrackerEvent.quiet : TrackerEvent → Bool
  | .deliver entries => entries.all (fun e => !e.isIntersecting)
  | .create _ => true

/-- The tracker state with "projects" active and all five sections observed. -/
def projectsActive : AppState := { active := "projects", observed := SECTIONS }

/-! ## The branch conditions of the effect -/

/-- Condition of the grow branch (line 22): `!deleting && charIdx < current.length`. -/
def growCond (current : JSString) (s : TWState) : Bool :=
  !s.deleting && decide (s.charIdx < (current.length : Int))

/-- Condition of the pause branch (line 24): `!deleting && charIdx === current.length`. -/
def pauseCond (current : JSString) (s : TWState) : Bool :=
  !s.deleting && decide (s.charIdx = (current.length : Int))

/-- Condition of the shrink branch (line 26): `deleting && charIdx > 0`. -/
def shrinkCond (s : TWState) : Bool :=
  s.deleting && decide (s.charIdx > 0)

/-- Condition of the advance branch (line 28): `deleting && charIdx === 0`. -/
def advanceCond (s : TWState) : Bool :=
  s.deleting && decide (s.charIdx = 0)

/-- The four branch conditions in source order. -/
def branchConds (current : JSString) (s : TWState) : List Bool :=
  [growCond current s, pauseCond current s, shrinkCond s, advanceCond s]

/-- No branch of the effect applies. -/
def noBranch (current : JSString) (s : TWState) : Bool :=
  !(growCond current s || pauseCond current s || shrinkCond s || advanceCond s)

/-- The phrase list `["", "B"]`, whose first phrase is the empty string. -/
def phrasesEmptyB : List JSString := [[], ['B']]

/-- The period of C18: the sum over the phrases of `2 * length + 2`. -/
def period (texts : List JSString) : Nat :=
  (texts.map (fun p => 2 * p.length + 2)).sum

/-- The state is the initial position of the machine: idx 0, charIdx 0, growing. -/
def atStart (s : TWState) : Prop :=
  s.idx = 0 ∧ s.charIdx = 0 ∧ s.deleting = false

/-! ## The `rootMargin` option of the observer -/

/-- One component of a `rootMargin`: pixels or a percentage. -/
inductive Length where
  | px (n : Int)
  | percent (n : Int)
  deriving DecidableEq, Repr

/-- The four components of a `rootMargin`, in CSS order. -/
structure Margin where
  top : Length
  right : Length
  bottom : Length
  left : Length
  deriving DecidableEq, Repr

/-- The option `rootMargin` passed to the observer (line 919). -/
def rootMargin : String := "-40% 0px -55% 0px"

/-- The blank-separated tokens of a string. -/
def splitOnSpace : List Char → List (List Char)
  | [] => [[]]
  | c :: cs =>
    match splitOnSpace cs with
    | [] => [[c]]
    | tok :: toks => if c = ' ' then [] :: tok :: toks else (c :: tok) :: toks

/-- A token `<integer>px` or `<integer>%`, with an optional minus sign. -/
def parseLength (tok : List Char) : Option Length :=
  let neg := tok.head? = some '-'
  let body := if neg then tok.tail else tok
  let digits := body.takeWhile Char.isDigit
  let unit := body.dropWhile Char.isDigit
  let n : Int := digits.foldl (fun a c => 10 * a + ((c.toNat - 48 : Nat) : Int)) 0
  let v : Int := if neg then -n else n
  if digits = [] then none
  else if unit = ['%'] then some (.percent v)
  else if unit = ['p', 'x'] then some (.px v)
  else none

/-- The host parses a four-component `rootMargin`: top, right, bottom, left. -/
def parseRootMargin (s : String) : Option Margin :=
  match (splitOnSpace s.toList).map parseLength with
  | [some t, some r, some b, some l] => some { top := t, right := r, bottom := b, left := l }
  | _ => none

/-- The share of the viewport height, in percent, that the top and the bottom margin
leave between them when both are percentages: 100 plus the two (negative) values. -/
def Margin.heightLeft (m : Margin) : Option Int :=
  match m.top, m.bottom with
  | .percent t, .percent b => some (100 + t + b)
  | _, _ => none

/-- The state after the host has delivered the batches in order. -/
def afterBatches (batches : List (List Entry)) (s : AppState) : AppState :=
  batches.foldl (fun st b => hostDeliver b st) s

/-- What the host last reported about the region `id`: `isIntersecting` of the latest
entry for it, `none` when it was never reported. -/
def lastReported (batches : List (List Entry)) (id : String) : Option Bool :=
  ((batches.flatten.filter (fun e => decide (e.targetId = id))).getLast?).map
    Entry.isIntersecting

/-- The batches the host delivers for five stacked sections of 1000 px on a viewport 1000 px
high (band from 400 px to 450 px): the first batch at scroll position 0 reports every
region; scrolled down by 580, "experience" enters the band while "home" is still in it;
scrolled back to 0, "experience" leaves the band and "home" never left it. -/
def scrollBatches : List (List Entry) :=
  [[⟨true, "home"⟩, ⟨false, "experience"⟩, ⟨false, "projects"⟩, ⟨false, "skills"⟩,
    ⟨false, "achievements"⟩],
   [⟨true, "experience"⟩],
   [⟨false, "experience"⟩]]

/-! ## Schedules of effect runs and timer firings -/

/-- What happens to a mounted typewriter: the effect runs, or the pending timer fires. The
effect runs after a render whenever one of its dependencies changed (line 34); `texts` is
one of them, so with an array that is fresh on every render, as at the call site in `Hero`
(lines 177-186), it runs again after every render. -/
inductive TWEvent where
  | effect
  | fire
  deriving DecidableEq, Repr

/-- The state after one event; `none` when the event cannot happen (no timer is pending,
or the effect throws). -/
def stepEvent (texts : List JSString) (speed pause : ℚ) (s : TWState) :
    TWEvent → Option TWState
  | .effect => runEffect texts speed pause s
  | .fire =>
    match s.pending with
    | [] => none
    | t :: _ => some (fire t s)

/-- The delays of the timers the event schedules: those an effect run adds to the table. -/
def scheduledBy (texts : List JSString) (speed pause : ℚ) (s : TWState) :
    TWEvent → List ℚ
  | .effect =>
    match runEffect texts speed pause s with
    | none => []
    | some s1 =>
      (s1.pending.filter (fun t => decide (s.nextHandle ≤ t.handle))).map Timer.delay
  | .fire => []

/-- The delay of the timer the event fires. -/
def firedBy (s : TWState) : TWEvent → List ℚ
  | .effect => []
  | .fire =>
    match s.pending with
    | [] => []
    | t :: _ => [t.delay]

/-- The run of a schedule from `s`: the final state, the delays of all timers scheduled and
the delays of the timers that fired, both in order. -/
def exec (texts : List JSString) (speed pause : ℚ) :
    List TWEvent → TWState → Option (TWState × List ℚ × List ℚ)
  | [], s => some (s, [], [])
  | ev :: evs, s =>
    match stepEvent texts speed pause s ev with
    | none => none
    | some s1 =>
      match exec texts speed pause evs s1 with
      | none => none
      | some r =>
        some (r.1, scheduledBy texts speed pause s ev ++ r.2.1, firedBy s ev ++ r.2.2)

/-- No event of the schedule is the advance: an effect run with `deleting` and
`charIdx = 0`. -/
def noAdvance (texts : List JSString) (speed pause : ℚ) : List TWEvent → TWState → Bool
  | [], _ => true
  | ev :: evs, s =>
    !(decide (ev = .effect) && advanceCond s) &&
      (match stepEvent texts speed pause s ev with
       | none => true
       | some s1 => noAdvance texts speed pause evs s1)

/-- The delay of the timer pending at position `p` of a visit of a phrase of length `L`:
positions `0 .. L - 1` are growing, `L` is the pause, `L + 1 .. 2 * L` are shrinking. -/
def expectedDelay (L : Nat) (speed pause : ℚ) (p : Nat) : ℚ :=
  if p < L then speed else if p = L then pause else speed / 2

/-- The callback of the timer pending at position `p`. -/
def expectedCallback (L p : Nat) : TimerCallback :=
  if p < L then .incChar else if p = L then .startDeleting else .decChar

/-- The typewriter is at position `p` of its visit of phrase `i`: `p` timers have fired
since the visit started. -/
structure OnVisit (texts : List JSString) (speed pause : ℚ) (i : Nat) (cur : JSString)
    (s : TWState) (p : Nat) : Prop where
  cur_eq : texts[i]? = some cur
  idx_eq : s.idx = i
  pos_le : p ≤ 2 * cur.length + 1
  grow : p ≤ cur.length → s.deleting = false ∧ s.charIdx = (p : Int)
  shrink : cur.length < p →
    s.deleting = true ∧ s.charIdx = ((2 * cur.length + 1 - p : Nat) : Int)
  pend : s.pending = [] ∨ ∃ t, s.pending = [t] ∧ s.timeout = some t.handle ∧
    t.handle < s.nextHandle ∧ p < 2 * cur.length + 1 ∧
    t.callback = expectedCallback cur.length p ∧
    t.delay = expectedDelay cur.length speed pause p

/-- The schedule of the hook as `Hero` calls it, for a phrase of three characters, up to the
advance: `texts` is a fresh array on every render, so the effect runs a second time after
each render in which `display` changed. At charIdx 0 and right after the pause `display`
does not change and the effect runs once. -/
def heroSchedule : List TWEvent :=
  [.effect, .fire,
   .effect, .effect, .fire,
   .effect, .effect, .fire,
   .effect, .effect, .fire,
   .effect, .fire,
   .effect, .effect, .fire,
   .effect, .effect, .fire]

/-- The schedule of the hook when `texts` keeps its identity, for a phrase of three
characters, up to the advance: one effect run for each timer that fires. -/
def stableSchedule : List TWEvent :=
  [.effect, .fire, .effect, .fire, .effect, .fire, .effect, .fire,
   .effect, .fire, .effect, .fire, .effect, .fire]

/-- The state of `["abc"]` at the end of `heroSchedule`. -/
def heroEnd : TWState :=
  { display := ['a'], idx := 0, charIdx := 0, deleting := true,
    pending := [], timeout := some 11, nextHandle := 12, mounted := true }

/-- The record of `stableSchedule` on `["abc"]` with speed 60 and pause 2000: the final
state, the seven timers scheduled and the same seven that fired. -/
def stableRecord : TWState × List ℚ × List ℚ :=
  ({ display := ['a'], idx := 0, charIdx := 0, deleting := true,
     pending := [], timeout := some 6, nextHandle := 7, mounted := true },
    [60, 60, 60, 2000, 30, 30, 30], [60, 60, 60, 2000, 30, 30, 30])

/-- The record of `heroSchedule` on `["abc"]` with speed 60 and pause 2000: the final
state, the twelve timers scheduled and the seven that fired. -/
def heroRecord : TWState × List ℚ × List ℚ :=
  (heroEnd, [60, 60, 60, 60, 60, 2000, 2000, 30, 30, 30, 30, 30],
    [60, 60, 60, 2000, 30, 30, 30])

end Portfolio

namespace Portfolio

/-! ## Proofs: typewriter -/

theorem clearTimeout_nil (h : Option Nat) : clearTimeout h [] = [] := by
  cases h <;> rfl

theorem Inv.init {texts : List JSString} (h : texts ≠ []) : Inv texts TWState.init := by
  refine ⟨?_, ?_, ?_, ?_, Or.inl rfl⟩
  · exact List.length_pos.mpr h
  · exact le_refl _
  · intro cur _
    show (0 : Int) ≤ _
    exact Int.natCast_nonneg _
  · intro cur _
    exact List.nil_prefix

theorem Inv.cleanup_pending {texts : List JSString} {s : TWState} (h : Inv texts s) :
    (cleanup s).pending = [] := by
  obtain ⟨cur, hcur⟩ : ∃ cur, texts[s.idx]? = some cur :=
    ⟨texts.get ⟨s.idx, h.idx_lt⟩, List.getElem?_eq_getElem h.idx_lt⟩
  rcases h.pend with hp | ⟨t, hp, _, ht⟩
  · simp [cleanup, hp, clearTimeout_nil]
  · have := (ht cur hcur).1
    simp [cleanup, hp, this, clearTimeout]

/-- The grow branch of the effect. -/
theorem runEffect_grow {texts : List JSString} {speed pause : ℚ} {s : TWState}
    {cur : JSString} (hp : (cleanup s).pending = []) (hcur : texts[s.idx]? = some cur)
    (hd : s.deleting = false) (hc : s.charIdx < (cur.length : Int)) :
    runEffect texts speed pause s = some
      { s with
        display := substring0 cur s.charIdx
        pending := [{ handle := s.nextHandle, callback := .incChar, delay := speed }]
        timeout := some s.nextHandle
        nextHandle := s.nextHandle + 1 } := by
  have h1 : (cleanup s).idx = s.idx := rfl
  have h2 : (cleanup s).deleting = s.deleting := rfl
  have h3 : (cleanup s).charIdx = s.charIdx := rfl
  simp only [runEffect, effectBody, h1, hcur, h2, h3, hd, hc, setTimeout, hp]
  simp [cleanup]

/-- The pause branch of the effect. -/
theorem runEffect_pause {texts : List JSString} {speed pause : ℚ} {s : TWState}
    {cur : JSString} (hp : (cleanup s).pending = []) (hcur : texts[s.idx]? = some cur)
    (hd : s.deleting = false) (hc : s.charIdx = (cur.length : Int)) :
    runEffect texts speed pause s = some
      { s with
        display := substring0 cur s.charIdx
        pending := [{ handle := s.nextHandle, callback := .startDeleting, delay := pause }]
        timeout := some s.nextHandle
        nextHandle := s.nextHandle + 1 } := by
  have h1 : (cleanup s).idx = s.idx := rfl
  have h2 : (cleanup s).deleting = s.deleting := rfl
  have h3 : (cleanup s).charIdx = s.charIdx := rfl
  simp only [runEffect, effectBody, h1, hcur, h2, h3, hd, hc, setTimeout, hp]
  simp [cleanup]

/-- The shrink branch of the effect. -/
theorem runEffect_shrink {texts : List JSString} {speed pause : ℚ} {s : TWState}
    {cur : JSString} (hp : (cleanup s).pending = []) (hcur : texts[s.idx]? = some cur)
    (hd : s.deleting = true) (hc : 0 < s.charIdx) :
    runEffect texts speed pause s = some
      { s with
        display := substring0 cur s.charIdx
        pending := [{ handle := s.nextHandle, callback := .decChar, delay := speed / 2 }]
        timeout := some s.nextHandle
        nextHandle := s.nextHandle + 1 } := by
  have h1 : (cleanup s).idx = s.idx := rfl
  have h2 : (cleanup s).deleting = s.deleting := rfl
  have h3 : (cleanup s).charIdx = s.charIdx := rfl
  simp only [runEffect, effectBody, h1, hcur, h2, h3, hd, setTimeout, hp]
  simp [cleanup, hc]

/-- The advance branch of the effect. -/
theorem runEffect_advance {texts : List JSString} {speed pause : ℚ} {s : TWState}
    {cur : JSString} (hp : (cleanup s).pending = []) (hcur : texts[s.idx]? = some cur)
    (hd : s.deleting = true) (hc : s.charIdx = 0) :
    runEffect texts speed pause s = some
      { s with
        display := []
        idx := (s.idx + 1) % texts.length
        deleting := false
        pending := []
        timeout := none } := by
  have h1 : (cleanup s).idx = s.idx := rfl
  have h2 : (cleanup s).deleting = s.deleting := rfl
  have h3 : (cleanup s).charIdx = s.charIdx := rfl
  simp only [runEffect, effectBody, h1, hcur, h2, h3, hd, hc, setTimeout]
  have hp' : clearTimeout s.timeout s.pending = [] := hp
  simp [cleanup, hp', substring0]

theorem Inv.current {texts : List JSString} {s : TWState} (h : Inv texts s) :
    ∃ cur, texts[s.idx]? = some cur :=
  ⟨texts.get ⟨s.idx, h.idx_lt⟩, List.getElem?_eq_getElem h.idx_lt⟩

theorem substring0_initial (cur : JSString) (e : Int) : substring0 cur e <+: cur :=
  List.take_prefix _ _

/-- The effect keeps the invariant. -/
theorem Inv.effect {texts : List JSString} {speed pause : ℚ} {s s' : TWState}
    (h : Inv texts s) (hm : s.mounted = true)
    (he : runEffect texts speed pause s = some s') : Inv texts s' := by
  obtain ⟨cur, hcur⟩ := h.current
  have hp := h.cleanup_pending
  have hle := h.char_le cur hcur
  have h0 := h.char_nonneg
  cases hd : s.deleting
  · rcases lt_or_eq_of_le hle with hc | hc
    · rw [runEffect_grow hp hcur hd hc] at he
      cases he
      refine ⟨h.idx_lt, h0, h.char_le, ?_, Or.inr ⟨_, rfl, hm, ?_⟩⟩
      · intro c hc'
        have : c = cur := by
          have h2 : texts[s.idx]? = some c := hc'
          rw [hcur] at h2
          exact (Option.some.inj h2).symm
        subst this
        exact substring0_initial _ _
      · intro c hc'
        have : c = cur := by
          have h2 : texts[s.idx]? = some c := hc'
          rw [hcur] at h2
          exact (Option.some.inj h2).symm
        subst this
        exact ⟨rfl, Nat.lt_succ_self _, hd, hc⟩
    · rw [runEffect_pause hp hcur hd hc] at he
      cases he
      refine ⟨h.idx_lt, h0, h.char_le, ?_, Or.inr ⟨_, rfl, hm, ?_⟩⟩
      · intro c hc'
        have : c = cur := by
          have h2 : texts[s.idx]? = some c := hc'
          rw [hcur] at h2
          exact (Option.some.inj h2).symm
        subst this
        exact substring0_initial _ _
      · intro c hc'
        have : c = cur := by
          have h2 : texts[s.idx]? = some c := hc'
          rw [hcur] at h2
          exact (Option.some.inj h2).symm
        subst this
        exact ⟨rfl, Nat.lt_succ_self _, hd, hc⟩
  · rcases lt_or_eq_of_le h0 with hc | hc
    · rw [runEffect_shrink hp hcur hd hc] at he
      cases he
      refine ⟨h.idx_lt, h0, h.char_le, ?_, Or.inr ⟨_, rfl, hm, ?_⟩⟩
      · intro c hc'
        have : c = cur := by
          have h2 : texts[s.idx]? = some c := hc'
          rw [hcur] at h2
          exact (Option.some.inj h2).symm
        subst this
        exact substring0_initial _ _
      · intro c hc'
        have : c = cur := by
          have h2 : texts[s.idx]? = some c := hc'
          rw [hcur] at h2
          exact (Option.some.inj h2).symm
        subst this
        exact ⟨rfl, Nat.lt_succ_self _, hd, hc⟩
    · rw [runEffect_advance hp hcur hd hc.symm] at he
      cases he
      refine ⟨Nat.mod_lt _ (Nat.lt_of_le_of_lt (Nat.zero_le _) h.idx_lt), ?_, ?_, ?_,
        Or.inl rfl⟩
      · exact h0
      · intro c _
        show s.charIdx ≤ _
        rw [← hc]
        exact Int.natCast_nonneg _
      · intro c _
        exact List.nil_prefix

/-- Firing a pending timer keeps the invariant. -/
theorem Inv.fire {texts : List JSString} {s : TWState} {t : Timer}
    (h : Inv texts s) (ht : t ∈ s.pending) : Inv texts (fire t s) := by
  obtain ⟨cur, hcur⟩ := h.current
  rcases h.pend with hp | ⟨u, hp, _, hu⟩
  · rw [hp] at ht
    cases ht
  · rw [hp] at ht
    have htu : t = u := by simpa using ht
    subst htu
    have hok := hu cur hcur
    obtain ⟨_, _, hg⟩ := hok
    have hpe : (s.pending.filter (fun u => u.handle != t.handle)) = [] := by
      simp [hp]
    have hcur' : ∀ c, texts[s.idx]? = some c → c = cur := by
      intro c hc
      rw [hcur] at hc
      exact (Option.some.inj hc).symm
    cases hcb : t.callback <;> rw [hcb] at hg <;> simp only [Portfolio.fire, hcb, applyCallback, hpe]
    · refine ⟨h.idx_lt, ?_, ?_, ?_, Or.inl rfl⟩
      · show 0 ≤ s.charIdx + 1
        have := h.char_nonneg
        omega
      · intro c hc
        rw [hcur' c hc]
        show s.charIdx + 1 ≤ _
        have := hg.2
        omega
      · exact h.disp
    · exact ⟨h.idx_lt, h.char_nonneg, h.char_le, h.disp, Or.inl rfl⟩
    · refine ⟨h.idx_lt, ?_, ?_, ?_, Or.inl rfl⟩
      · show 0 ≤ s.charIdx - 1
        have := hg.2
        omega
      · intro c hc
        have := h.char_le c hc
        show s.charIdx - 1 ≤ _
        omega
      · exact h.disp

/-- Unmounting keeps the invariant. -/
theorem Inv.teardown {texts : List JSString} {s : TWState} (h : Inv texts s) :
    Inv texts (teardown s) :=
  ⟨h.idx_lt, h.char_nonneg, h.char_le, h.disp, Or.inl h.cleanup_pending⟩

/-- Every event keeps the invariant. -/
theorem Inv.step {texts : List JSString} {speed pause : ℚ} {s s' : TWState}
    (h : Inv texts s) (st : Step texts speed pause s s') : Inv texts s' := by
  cases st with
  | effect hm he => exact h.effect hm he
  | fire t ht => exact h.fire ht
  | teardown _ => exact h.teardown

/-- The invariant holds in every reachable state of a non-empty phrase list. -/
theorem Inv.of_reachable {texts : List JSString} {speed pause : ℚ} {s : TWState}
    (hne : texts ≠ []) (hr : Reachable texts speed pause s) : Inv texts s := by
  induction hr with
  | init => exact Inv.init hne
  | step _ st ih => exact ih.step st

/-! ### The four transitions -/

theorem AtPos.cleanup_empty {s : TWState} {i : Nat} {c : Int} {d : Bool}
    (h : AtPos s i c d) : (cleanup s).pending = [] := by
  simp [cleanup, h.1, clearTimeout_nil]

theorem fireNext_single (s : TWState) (t : Timer) (h : s.pending = [t]) :
    fireNext s = applyCallback t.callback { s with pending := [] } := by
  simp [fireNext, h, fire]

theorem tickT_grow {texts : List JSString} {speed pause : ℚ} {s : TWState}
    {cur : JSString} (hp : (cleanup s).pending = []) (hcur : texts[s.idx]? = some cur)
    (hd : s.deleting = false) (hc : s.charIdx < (cur.length : Int)) :
    tickT texts speed pause s = some
      ({ s with
          display := substring0 cur s.charIdx
          charIdx := s.charIdx + 1
          pending := []
          timeout := some s.nextHandle
          nextHandle := s.nextHandle + 1 }, speed) := by
  rw [tickT, runEffect_grow hp hcur hd hc]
  simp [fireNext, fire, nextDelay, applyCallback]

theorem tickT_pause {texts : List JSString} {speed pause : ℚ} {s : TWState}
    {cur : JSString} (hp : (cleanup s).pending = []) (hcur : texts[s.idx]? = some cur)
    (hd : s.deleting = false) (hc : s.charIdx = (cur.length : Int)) :
    tickT texts speed pause s = some
      ({ s with
          display := substring0 cur s.charIdx
          deleting := true
          pending := []
          timeout := some s.nextHandle
          nextHandle := s.nextHandle + 1 }, pause) := by
  rw [tickT, runEffect_pause hp hcur hd hc]
  simp [fireNext, fire, nextDelay, applyCallback]

theorem tickT_shrink {texts : List JSString} {speed pause : ℚ} {s : TWState}
    {cur : JSString} (hp : (cleanup s).pending = []) (hcur : texts[s.idx]? = some cur)
    (hd : s.deleting = true) (hc : 0 < s.charIdx) :
    tickT texts speed pause s = some
      ({ s with
          display := substring0 cur s.charIdx
          charIdx := s.charIdx - 1
          pending := []
          timeout := some s.nextHandle
          nextHandle := s.nextHandle + 1 }, speed / 2) := by
  rw [tickT, runEffect_shrink hp hcur hd hc]
  simp [fireNext, fire, nextDelay, applyCallback]

theorem tickT_advance {texts : List JSString} {speed pause : ℚ} {s : TWState}
    {cur : JSString} (hp : (cleanup s).pending = []) (hcur : texts[s.idx]? = some cur)
    (hd : s.deleting = true) (hc : s.charIdx = 0) :
    tickT texts speed pause s = some
      ({ s with
          display := []
          idx := (s.idx + 1) % texts.length
          deleting := false
          pending := []
          timeout := none }, 0) := by
  rw [tickT, runEffect_advance hp hcur hd hc]
  simp [fireNext, nextDelay]

theorem tick_of_tickT {texts : List JSString} {speed pause : ℚ} {s s' : TWState} {d : ℚ}
    (h : tickT texts speed pause s = some (s', d)) : tick texts speed pause s = some s' := by
  simp [tick, h]

/-! ### Runs -/

theorem runT_succ {texts : List JSString} {speed pause : ℚ} {s u v : TWState} {a b : ℚ}
    {n : Nat} (h1 : tickT texts speed pause s = some (u, a))
    (h2 : runT texts speed pause n u = some (v, b)) :
    runT texts speed pause (n + 1) s = some (v, a + b) := by
  simp [runT, h1, h2]

theorem trace_succ {texts : List JSString} {speed pause : ℚ} {s u : TWState} {a : ℚ}
    (n : Nat) (h1 : tickT texts speed pause s = some (u, a)) :
    trace texts speed pause (n + 1) s = s :: trace texts speed pause n u := by
  simp [trace, tick_of_tickT h1]

theorem runT_trans {texts : List JSString} {speed pause : ℚ} (m n : Nat) :
    ∀ (s u v : TWState) (a b : ℚ), runT texts speed pause m s = some (u, a) →
      runT texts speed pause n u = some (v, b) →
      runT texts speed pause (m + n) s = some (v, a + b) := by
  induction m with
  | zero =>
    intro s u v a b h1 h2
    simp only [runT, Option.some.injEq, Prod.mk.injEq] at h1
    obtain ⟨rfl, rfl⟩ := h1
    simpa using h2
  | succ m ih =>
    intro s u v a b h1 h2
    cases ht : tickT texts speed pause s with
    | none => simp [runT, ht] at h1
    | some p =>
      obtain ⟨w, c⟩ := p
      cases hr : runT texts speed pause m w with
      | none => simp [runT, ht, hr] at h1
      | some q =>
        obtain ⟨x, e⟩ := q
        simp only [runT, ht, hr, Option.some_bind, Option.map_some', Option.some.injEq,
          Prod.mk.injEq] at h1
        obtain ⟨rfl, rfl⟩ := h1
        have := ih w x v e b hr h2
        rw [show m + 1 + n = (m + n) + 1 by omega, runT_succ ht this, add_assoc]

theorem trace_append {texts : List JSString} {speed pause : ℚ} (m n : Nat) :
    ∀ (s u : TWState) (a : ℚ), runT texts speed pause m s = some (u, a) →
      trace texts speed pause (m + n) s =
        trace texts speed pause m s ++ trace texts speed pause n u := by
  induction m with
  | zero =>
    intro s u a h1
    simp only [runT, Option.some.injEq, Prod.mk.injEq] at h1
    obtain ⟨rfl, rfl⟩ := h1
    simp [trace]
  | succ m ih =>
    intro s u a h1
    cases ht : tickT texts speed pause s with
    | none => simp [runT, ht] at h1
    | some p =>
      obtain ⟨w, c⟩ := p
      cases hr : runT texts speed pause m w with
      | none => simp [runT, ht, hr] at h1
      | some q =>
        obtain ⟨x, e⟩ := q
        simp only [runT, ht, hr, Option.some_bind, Option.map_some', Option.some.injEq,
          Prod.mk.injEq] at h1
        obtain ⟨rfl, rfl⟩ := h1
        rw [show m + 1 + n = (m + n) + 1 by omega, trace_succ _ ht, trace_succ _ ht,
          ih w x e hr, List.cons_append]

theorem trace_initial {texts : List JSString} {speed pause : ℚ} (m n : Nat) :
    ∀ s : TWState, trace texts speed pause m s <+: trace texts speed pause (m + n) s := by
  induction m with
  | zero => intro s; simp [trace]
  | succ m ih =>
    intro s
    rw [show m + 1 + n = (m + n) + 1 by omega]
    cases ht : tick texts speed pause s with
    | none => simp [trace, ht]
    | some u =>
      simp only [trace, ht]
      exact List.prefix_cons_inj s |>.mpr (ih u)

theorem run_of_runT {texts : List JSString} {speed pause : ℚ} {s u : TWState} {a : ℚ}
    {n : Nat} (h : runT texts speed pause n s = some (u, a)) :
    run texts speed pause n s = some u := by
  simp [run, h]

/-! ### One phrase visit -/

theorem grow_at {texts : List JSString} (speed pause : ℚ) {s : TWState} {i : Nat}
    {c : Int} {cur : JSString} (h : AtPos s i c false) (hcur : texts[i]? = some cur)
    (hc : c < (cur.length : Int)) :
    ∃ s', tickT texts speed pause s = some (s', speed) ∧ AtPos s' i (c + 1) false := by
  obtain ⟨hp, hi, hci, hd⟩ := h
  have hcur' : texts[s.idx]? = some cur := by rw [hi]; exact hcur
  have hcl := AtPos.cleanup_empty ⟨hp, hi, hci, hd⟩
  have hlt : s.charIdx < (cur.length : Int) := by rw [hci]; exact hc
  refine ⟨_, tickT_grow hcl hcur' hd hlt, ⟨rfl, hi, ?_, hd⟩⟩
  show s.charIdx + 1 = c + 1
  rw [hci]

theorem pause_at {texts : List JSString} (speed pause : ℚ) {s : TWState} {i : Nat}
    {cur : JSString} (h : AtPos s i (cur.length : Int) false) (hcur : texts[i]? = some cur) :
    ∃ s', tickT texts speed pause s = some (s', pause) ∧
      AtPos s' i (cur.length : Int) true := by
  obtain ⟨hp, hi, hci, hd⟩ := h
  have hcur' : texts[s.idx]? = some cur := by rw [hi]; exact hcur
  have hcl := AtPos.cleanup_empty ⟨hp, hi, hci, hd⟩
  exact ⟨_, tickT_pause hcl hcur' hd hci, ⟨rfl, hi, hci, rfl⟩⟩

theorem shrink_at {texts : List JSString} (speed pause : ℚ) {s : TWState} {i : Nat}
    {c : Int} {cur : JSString} (h : AtPos s i c true) (hcur : texts[i]? = some cur)
    (hc : 0 < c) :
    ∃ s', tickT texts speed pause s = some (s', speed / 2) ∧ AtPos s' i (c - 1) true := by
  obtain ⟨hp, hi, hci, hd⟩ := h
  have hcur' : texts[s.idx]? = some cur := by rw [hi]; exact hcur
  have hcl := AtPos.cleanup_empty ⟨hp, hi, hci, hd⟩
  have hlt : 0 < s.charIdx := by rw [hci]; exact hc
  refine ⟨_, tickT_shrink hcl hcur' hd hlt, ⟨rfl, hi, ?_, hd⟩⟩
  show s.charIdx - 1 = c - 1
  rw [hci]

theorem advance_at {texts : List JSString} (speed pause : ℚ) {s : TWState} {i : Nat}
    {cur : JSString} (h : AtPos s i 0 true) (hcur : texts[i]? = some cur) :
    ∃ s', tickT texts speed pause s = some (s', 0) ∧
      AtPos s' ((i + 1) % texts.length) 0 false ∧ s'.display = [] := by
  obtain ⟨hp, hi, hci, hd⟩ := h
  have hcur' : texts[s.idx]? = some cur := by rw [hi]; exact hcur
  have hcl := AtPos.cleanup_empty ⟨hp, hi, hci, hd⟩
  refine ⟨_, tickT_advance hcl hcur' hd hci, ⟨rfl, ?_, hci, rfl⟩, rfl⟩
  show (s.idx + 1) % texts.length = _
  rw [hi]

/-- Growing: `k` transitions from `c` characters to `c + k`, each after `speed`. -/
theorem grow_seg {texts : List JSString} (speed pause : ℚ) {i : Nat} {cur : JSString}
    (hcur : texts[i]? = some cur) (k : Nat) :
    ∀ (s : TWState) (c : Nat), AtPos s i c false → c + k ≤ cur.length →
      ∃ s', runT texts speed pause k s = some (s', k * speed) ∧
        AtPos s' i ((c + k : Nat) : Int) false ∧
        ∀ u ∈ trace texts speed pause k s,
          u.idx = i ∧ u.deleting = false ∧ u.charIdx < (cur.length : Int) := by
  induction k with
  | zero =>
    intro s c h _
    exact ⟨s, by simp [runT], by simpa using h, by simp [trace]⟩
  | succ k ih =>
    intro s c h hle
    have hlt : (c : Int) < (cur.length : Int) := by omega
    obtain ⟨s1, ht, h1⟩ := grow_at speed pause h hcur hlt
    obtain ⟨s', hr, hat, htr⟩ := ih s1 (c + 1) (by push_cast; exact h1) (by omega)
    refine ⟨s', ?_, ?_, ?_⟩
    · rw [runT_succ ht hr]
      congr 2
      push_cast
      ring
    · rw [show c + (k + 1) = c + 1 + k by omega]
      exact hat
    · intro u hu
      rw [trace_succ _ ht] at hu
      rcases List.mem_cons.mp hu with rfl | hu
      · exact ⟨h.2.1, h.2.2.2, by rw [h.2.2.1]; exact hlt⟩
      · exact htr u hu

/-- Shrinking: `k` transitions from `k` characters to none, each after `speed / 2`. -/
theorem shrink_seg {texts : List JSString} (speed pause : ℚ) {i : Nat} {cur : JSString}
    (hcur : texts[i]? = some cur) (k : Nat) :
    ∀ s : TWState, AtPos s i (k : Int) true →
      ∃ s', runT texts speed pause k s = some (s', k * (speed / 2)) ∧
        AtPos s' i 0 true ∧
        ∀ u ∈ trace texts speed pause k s, u.idx = i ∧ u.deleting = true := by
  induction k with
  | zero =>
    intro s h
    exact ⟨s, by simp [runT], by simpa using h, by simp [trace]⟩
  | succ k ih =>
    intro s h
    have hlt : (0 : Int) < ((k + 1 : Nat) : Int) := by omega
    obtain ⟨s1, ht, h1⟩ := shrink_at speed pause h hcur hlt
    obtain ⟨s', hr, hat, htr⟩ := ih s1 (by
      have e : ((k + 1 : Nat) : Int) - 1 = (k : Int) := by omega
      rw [e] at h1
      exact h1)
    refine ⟨s', ?_, hat, ?_⟩
    · rw [runT_succ ht hr]
      congr 2
      push_cast
      ring
    · intro u hu
      rw [trace_succ _ ht] at hu
      rcases List.mem_cons.mp hu with rfl | hu
      · exact ⟨h.2.1, h.2.2.2⟩
      · exact htr u hu

theorem fullShown_growing {texts : List JSString} {speed pause : ℚ} {u : TWState}
    {cur : JSString} (hcur : texts[u.idx]? = some cur)
    (hlt : u.charIdx < (cur.length : Int)) : fullShown texts speed pause u = none := by
  have : ¬ u.charIdx = (cur.length : Int) := by omega
  simp [fullShown, isFull, hcur, this]

theorem fullShown_deleting {texts : List JSString} {speed pause : ℚ} {u : TWState}
    (hd : u.deleting = true) : fullShown texts speed pause u = none := by
  have h : isFull texts u = false := by
    unfold isFull
    split <;> simp [hd]
  simp [fullShown, h]

theorem fullShown_full {texts : List JSString} {speed pause : ℚ} {u : TWState}
    {cur : JSString} (hp : (cleanup u).pending = []) (hcur : texts[u.idx]? = some cur)
    (hd : u.deleting = false) (hc : u.charIdx = (cur.length : Int)) :
    fullShown texts speed pause u = some cur := by
  simp [fullShown, isFull, hcur, hd, hc, shown, runEffect_pause hp hcur hd hc, substring0]

/-- One whole phrase visit: grow, pause, shrink, advance. -/
theorem phrase_seg {texts : List JSString} (speed pause : ℚ) {i : Nat} {cur : JSString}
    (hcur : texts[i]? = some cur) (s : TWState) (h : AtPos s i 0 false) :
    ∃ sF sD sZ s',
      runT texts speed pause cur.length s = some (sF, cur.length * speed) ∧
      AtPos sF i (cur.length : Int) false ∧
      tickT texts speed pause sF = some (sD, pause) ∧
      AtPos sD i (cur.length : Int) true ∧
      runT texts speed pause cur.length sD = some (sZ, cur.length * (speed / 2)) ∧
      AtPos sZ i 0 true ∧
      tickT texts speed pause sZ = some (s', 0) ∧
      AtPos s' ((i + 1) % texts.length) 0 false ∧ s'.display = [] ∧
      runT texts speed pause (2 * cur.length + 2) s =
        some (s', cur.length * speed + pause + cur.length * (speed / 2)) ∧
      (trace texts speed pause (2 * cur.length + 2) s).filterMap
        (fullShown texts speed pause) = [cur] ∧
      ∀ u ∈ trace texts speed pause (2 * cur.length + 2) s, u.idx = i := by
  obtain ⟨sF, hrF, hF, htrF⟩ := grow_seg speed pause hcur cur.length s 0
    (by simpa using h) (by omega)
  rw [Nat.zero_add] at hF
  obtain ⟨sD, htD, hD⟩ := pause_at speed pause hF hcur
  obtain ⟨sZ, hrZ, hZ, htrZ⟩ :=
    shrink_seg speed pause hcur cur.length sD hD
  obtain ⟨s', htA, hA, hdisp⟩ := advance_at speed pause hZ hcur
  have r0 : ∀ u : TWState, runT texts speed pause 0 u = some (u, 0) := fun _ => rfl
  have r1 := runT_succ htD (r0 sD)
  have r2 := runT_succ htA (r0 s')
  have r3 := runT_trans _ _ _ _ _ _ _ hrZ r2
  have r4 := runT_trans _ _ _ _ _ _ _ r1 r3
  have r5 := runT_trans _ _ _ _ _ _ _ hrF r4
  have e : 2 * cur.length + 2 = cur.length + (0 + 1 + (cur.length + (0 + 1))) := by omega
  have t1 : trace texts speed pause (0 + 1) sF = [sF] := by
    rw [trace_succ _ htD]; rfl
  have t2 : trace texts speed pause (0 + 1) sZ = [sZ] := by
    rw [trace_succ _ htA]; rfl
  have tr : trace texts speed pause (2 * cur.length + 2) s =
      trace texts speed pause cur.length s ++ ([sF] ++
        (trace texts speed pause cur.length sD ++ [sZ])) := by
    rw [e, trace_append _ _ _ _ _ hrF, trace_append _ _ _ _ _ r1, t1,
      trace_append _ _ _ _ _ hrZ, t2]
  refine ⟨sF, sD, sZ, s', hrF, hF, htD, hD, hrZ, hZ, htA, hA, hdisp, ?_, ?_, ?_⟩
  · rw [e, r5]
    congr 2
    ring
  · have f1 : (trace texts speed pause cur.length s).filterMap
        (fullShown texts speed pause) = [] := by
      rw [List.filterMap_eq_nil_iff]
      intro u hu
      obtain ⟨hi, _, hlt⟩ := htrF u hu
      exact fullShown_growing (by rw [hi]; exact hcur) hlt
    have f2 : (trace texts speed pause cur.length sD).filterMap
        (fullShown texts speed pause) = [] := by
      rw [List.filterMap_eq_nil_iff]
      intro u hu
      exact fullShown_deleting (htrZ u hu).2
    have f3 : fullShown texts speed pause sF = some cur :=
      fullShown_full hF.cleanup_empty (by rw [hF.2.1]; exact hcur) hF.2.2.2 hF.2.2.1
    have f4 : fullShown texts speed pause sZ = none := fullShown_deleting hZ.2.2.2
    rw [tr]
    simp [List.filterMap_append, f1, f2, List.filterMap_cons, f3, f4]
  · intro u hu
    rw [tr] at hu
    simp only [List.mem_append, List.mem_singleton] at hu
    rcases hu with hu | rfl | hu | rfl
    · exact (htrF u hu).1
    · exact hF.2.1
    · exact (htrZ u hu).1
    · exact hZ.2.1

/-! ### Phrase visits in sequence -/

theorem AtPos.at_mount : AtPos TWState.init 0 0 false := ⟨rfl, rfl, rfl, rfl⟩

theorem le_ticksBefore (texts : List JSString) (k : Nat) : k ≤ ticksBefore texts k := by
  induction k with
  | zero => exact Nat.le_refl _
  | succ k ih =>
    simp only [ticksBefore, phraseTicks]
    omega

/-- After `ticksBefore texts k` transitions the machine starts its `k`-th phrase visit, on
phrase `k % n`, and the full displays so far are the phrases `0 % n, ..., (k - 1) % n`. -/
theorem visits {texts : List JSString} (speed pause : ℚ) (hne : texts ≠ []) (k : Nat) :
    ∃ s a, runT texts speed pause (ticksBefore texts k) TWState.init = some (s, a) ∧
      AtPos s (k % texts.length) 0 false ∧
      fullDisplays texts speed pause (ticksBefore texts k) =
        (List.range k).map (fun j => texts.getD (j % texts.length) []) := by
  have hpos : 0 < texts.length := List.length_pos.mpr hne
  induction k with
  | zero =>
    exact ⟨TWState.init, 0, rfl, by simpa using AtPos.at_mount, by simp [fullDisplays, ticksBefore, trace]⟩
  | succ k ih =>
    obtain ⟨s, a, hr, hat, hfd⟩ := ih
    have hlt : k % texts.length < texts.length := Nat.mod_lt _ hpos
    have hcur : texts[k % texts.length]? = some (texts.get ⟨k % texts.length, hlt⟩) :=
      List.getElem?_eq_getElem hlt
    have hD : texts.getD (k % texts.length) [] = texts.get ⟨k % texts.length, hlt⟩ := by
      rw [List.getD_eq_getElem?_getD, hcur]
      rfl
    obtain ⟨_, _, _, s', _, _, _, _, _, _, _, hA, _, hrun, hfull, _⟩ :=
      phrase_seg speed pause hcur s hat
    have hticks : ticksBefore texts (k + 1) =
        ticksBefore texts k + (2 * (texts.get ⟨k % texts.length, hlt⟩).length + 2) := by
      simp only [ticksBefore, phraseTicks, hD]
    have hr2 := runT_trans _ _ _ _ _ _ _ hr hrun
    rw [← hticks] at hr2
    refine ⟨s', _, hr2, ?_, ?_⟩
    · rw [Nat.mod_add_mod] at hA
      exact hA
    · unfold fullDisplays at hfd ⊢
      rw [hticks, trace_append _ _ _ _ _ hr, List.filterMap_append, hfd, hfull,
        List.range_succ, List.map_append, List.map_singleton, hD]

/-! ### Transitions of the machine are events of the component -/

theorem runEffect_mounted {texts : List JSString} {speed pause : ℚ} {s s' : TWState}
    (he : runEffect texts speed pause s = some s') : s'.mounted = s.mounted := by
  unfold runEffect effectBody at he
  split at he
  · cases he
  · simp only [Option.some.injEq] at he
    subst he
    simp only [setTimeout]
    split_ifs <;> rfl

theorem fire_mounted (t : Timer) (s : TWState) : (fire t s).mounted = s.mounted := by
  unfold fire applyCallback
  cases t.callback <;> rfl

theorem reachable_tick {texts : List JSString} {speed pause : ℚ} {s u : TWState}
    (hr : Reachable texts speed pause s) (hm : s.mounted = true)
    (ht : tick texts speed pause s = some u) :
    Reachable texts speed pause u ∧ u.mounted = true := by
  unfold tick tickT at ht
  cases he : runEffect texts speed pause s with
  | none => simp [he] at ht
  | some s1 =>
    simp only [he, Option.map_some', Option.some.injEq] at ht
    subst ht
    have hr1 : Reachable texts speed pause s1 := Reachable.step hr (Step.effect hm he)
    have hm1 : s1.mounted = true := by rw [runEffect_mounted he]; exact hm
    unfold fireNext
    cases hp : s1.pending with
    | nil => exact ⟨hr1, hm1⟩
    | cons t ts =>
      refine ⟨Reachable.step hr1 (Step.fire t (by rw [hp]; exact List.mem_cons_self _ _)), ?_⟩
      rw [fire_mounted]
      exact hm1

/-- Every state of the run from mount is a reachable state. -/
theorem reachable_run {texts : List JSString} {speed pause : ℚ} (n : Nat) :
    ∀ {s u : TWState}, Reachable texts speed pause s → s.mounted = true →
      run texts speed pause n s = some u →
      Reachable texts speed pause u ∧ u.mounted = true := by
  induction n with
  | zero =>
    intro s u hr hm h
    simp only [run, runT, Option.map_some', Option.some.injEq] at h
    subst h
    exact ⟨hr, hm⟩
  | succ n ih =>
    intro s u hr hm h
    cases ht : tickT texts speed pause s with
    | none => simp [run, runT, ht] at h
    | some p =>
      obtain ⟨w, c⟩ := p
      obtain ⟨hr1, hm1⟩ := reachable_tick hr hm (tick_of_tickT ht)
      apply ih hr1 hm1
      cases hq : runT texts speed pause n w with
      | none => simp [run, runT, ht, hq] at h
      | some q =>
        simp only [run, runT, ht, hq, Option.some_bind, Option.map_some', Option.some.injEq] at h
        simp [run, hq, h]

theorem reachable_staleAB : Reachable phrasesAB 60 2000 staleAB :=
  (reachable_run 1 Reachable.init rfl (by rfl : run phrasesAB 60 2000 1 TWState.init = some staleAB)).1

theorem reachable_deletedAB : Reachable phrasesAB 60 2000 deletedAB :=
  (reachable_run 3 Reachable.init rfl (by rfl : run phrasesAB 60 2000 3 TWState.init = some deletedAB)).1

/-! ### What one event changes -/

/-- An effect run never changes `charIdx`; it changes `idx` and `deleting` only in the
advance branch; the timers it leaves are the one it has just scheduled. -/
theorem effect_core {texts : List JSString} {speed pause : ℚ} {s s' : TWState}
    (h : Inv texts s) (he : runEffect texts speed pause s = some s') :
    s'.charIdx = s.charIdx ∧
    ((s.deleting = true ∧ s.charIdx = 0 ∧ s'.idx = (s.idx + 1) % texts.length ∧
        s'.deleting = false ∧ s'.pending = []) ∨
      (¬ (s.deleting = true ∧ s.charIdx = 0) ∧ s'.idx = s.idx ∧ s'.deleting = s.deleting ∧
        ∃ t, s'.pending = [t] ∧ t.handle = s.nextHandle)) := by
  obtain ⟨cur, hcur⟩ := h.current
  have hp := h.cleanup_pending
  have hle := h.char_le cur hcur
  have h0 := h.char_nonneg
  cases hd : s.deleting
  · rcases lt_or_eq_of_le hle with hc | hc
    · rw [runEffect_grow hp hcur hd hc] at he
      cases he
      exact ⟨rfl, Or.inr ⟨by simp, rfl, hd, _, rfl, rfl⟩⟩
    · rw [runEffect_pause hp hcur hd hc] at he
      cases he
      exact ⟨rfl, Or.inr ⟨by simp, rfl, hd, _, rfl, rfl⟩⟩
  · rcases lt_or_eq_of_le h0 with hc | hc
    · rw [runEffect_shrink hp hcur hd hc] at he
      cases he
      refine ⟨rfl, Or.inr ⟨?_, rfl, hd, _, rfl, rfl⟩⟩
      intro hh
      omega
    · rw [runEffect_advance hp hcur hd hc.symm] at he
      cases he
      exact ⟨rfl, Or.inl ⟨rfl, hc.symm, rfl, rfl, rfl⟩⟩

/-- A timer that fires never changes `idx`, and changes `deleting` only from growing at
full length. -/
theorem fire_core {texts : List JSString} {s : TWState} {t : Timer} {cur : JSString}
    (h : Inv texts s) (hcur : texts[s.idx]? = some cur) (ht : t ∈ s.pending) :
    (fire t s).idx = s.idx ∧
    ((fire t s).deleting = s.deleting ∨
      (s.deleting = false ∧ s.charIdx = (cur.length : Int) ∧ (fire t s).deleting = true)) := by
  rcases h.pend with hp | ⟨u, hp, _, hu⟩
  · rw [hp] at ht
    cases ht
  · rw [hp] at ht
    have htu : t = u := by simpa using ht
    subst htu
    obtain ⟨_, _, hg⟩ := hu cur hcur
    have e : fire t s = applyCallback t.callback
        { s with pending := s.pending.filter (fun u => u.handle != t.handle) } := rfl
    rw [e]
    cases hcb : t.callback <;> rw [hcb] at hg
    · exact ⟨rfl, Or.inl rfl⟩
    · exact ⟨rfl, Or.inr ⟨hg.1, hg.2, rfl⟩⟩
    · exact ⟨rfl, Or.inl rfl⟩

/-- An effect run always succeeds in a state that satisfies the invariant. -/
theorem effect_total {texts : List JSString} (speed pause : ℚ) {s : TWState}
    (h : Inv texts s) : ∃ s', runEffect texts speed pause s = some s' := by
  obtain ⟨cur, hcur⟩ := h.current
  have hp := h.cleanup_pending
  have hle := h.char_le cur hcur
  have h0 := h.char_nonneg
  cases hd : s.deleting
  · rcases lt_or_eq_of_le hle with hc | hc
    · exact ⟨_, runEffect_grow hp hcur hd hc⟩
    · exact ⟨_, runEffect_pause hp hcur hd hc⟩
  · rcases lt_or_eq_of_le h0 with hc | hc
    · exact ⟨_, runEffect_shrink hp hcur hd hc⟩
    · exact ⟨_, runEffect_advance hp hcur hd hc.symm⟩

/-- No event is enabled once the component is unmounted with no timer pending. -/
theorem no_step_unmounted {texts : List JSString} {speed pause : ℚ} {s u : TWState}
    (hm : s.mounted = false) (hp : s.pending = [])
    (hs : Relation.ReflTransGen (Step texts speed pause) s u) : u = s := by
  induction hs with
  | refl => rfl
  | tail _ st ih =>
    subst ih
    cases st with
    | effect hm' _ => rw [hm] at hm'; cases hm'
    | fire t ht => rw [hp] at ht; cases ht
    | teardown hm' => rw [hm] at hm'; cases hm'

theorem reachable_typingAB : Reachable phrasesAB 60 2000 typingAB :=
  Reachable.step Reachable.init
    (Step.effect rfl (by rfl : runEffect phrasesAB 60 2000 TWState.init = some typingAB))

/-! ## Claims: typewriter -/

/-- C1: for a non-empty phrase list, in every state reachable from the mount state by
effect runs, timer firings and unmount (the renders in which `display` lags behind
`charIdx` or `idx` included), the displayed string is an exact prefix of the active phrase
`texts[idx]` and is no longer than it. -/
theorem display_prefix_of_active_phrase (texts : List JSString) (speed pause : ℚ)
    (s : TWState) (hne : texts ≠ []) (hr : Reachable texts speed pause s) :
    ∃ cur, texts[s.idx]? = some cur ∧ s.display <+: cur ∧
      s.display = cur.take s.display.length ∧ s.display.length ≤ cur.length := by
  have h := Inv.of_reachable hne hr
  obtain ⟨cur, hcur⟩ := h.current
  have hd := h.disp cur hcur
  exact ⟨cur, hcur, hd, List.prefix_iff_eq_take.mp hd, hd.length_le⟩

theorem display_prefix_of_active_phrase_witness :
    ∃ cur, phrasesAB[staleAB.idx]? = some cur ∧ staleAB.display <+: cur ∧
      staleAB.display = cur.take staleAB.display.length ∧
      staleAB.display.length ≤ cur.length :=
  display_prefix_of_active_phrase phrasesAB 60 2000 staleAB (by decide) reachable_staleAB

/-- C4: for a non-empty phrase list, `idx` is a valid index in every reachable state; an
event changes `idx` only when it is the effect run at `charIdx = 0` while deleting, which
sets `idx` to `(idx + 1) % texts.length` and the direction back to growing; and in such a
state of a mounted typewriter that effect run does happen. -/
theorem idx_valid_and_advance (texts : List JSString) (speed pause : ℚ)
    (s : TWState) (hne : texts ≠ []) (hr : Reachable texts speed pause s) :
    s.idx < texts.length ∧
    (∀ s', Step texts speed pause s s' →
      s'.idx = s.idx ∨
        (s.deleting = true ∧ s.charIdx = 0 ∧ s'.idx = (s.idx + 1) % texts.length ∧
          s'.deleting = false)) ∧
    (s.mounted = true → s.deleting = true → s.charIdx = 0 →
      ∃ s', Step texts speed pause s s' ∧ s'.idx = (s.idx + 1) % texts.length ∧
        s'.deleting = false ∧ s'.charIdx = 0) := by
  have h := Inv.of_reachable hne hr
  obtain ⟨cur, hcur⟩ := h.current
  refine ⟨h.idx_lt, ?_, ?_⟩
  · intro s' st
    cases st with
    | effect hm he =>
      rcases (effect_core h he).2 with ⟨hd, hc, hi, hd', _⟩ | ⟨_, hi, _⟩
      · exact Or.inr ⟨hd, hc, hi, hd'⟩
      · exact Or.inl hi
    | fire t ht => exact Or.inl (fire_core h hcur ht).1
    | teardown _ => exact Or.inl rfl
  · intro hm hd hc
    exact ⟨_, Step.effect hm (runEffect_advance h.cleanup_pending hcur hd hc), rfl, rfl, hc⟩

theorem idx_valid_and_advance_witness :
    deletedAB.idx < phrasesAB.length ∧
    (∀ s', Step phrasesAB 60 2000 deletedAB s' →
      s'.idx = deletedAB.idx ∨
        (deletedAB.deleting = true ∧ deletedAB.charIdx = 0 ∧
          s'.idx = (deletedAB.idx + 1) % phrasesAB.length ∧ s'.deleting = false)) ∧
    (deletedAB.mounted = true → deletedAB.deleting = true → deletedAB.charIdx = 0 →
      ∃ s', Step phrasesAB 60 2000 deletedAB s' ∧
        s'.idx = (deletedAB.idx + 1) % phrasesAB.length ∧
        s'.deleting = false ∧ s'.charIdx = 0) :=
  idx_valid_and_advance phrasesAB 60 2000 deletedAB (by decide) reachable_deletedAB

/-- C5: in every reachable state `0 ≤ charIdx ≤ texts[idx].length`; an event turns
`deleting` from false to true only at `charIdx = texts[idx].length` and from true to false
only at `charIdx = 0`, together with the advance to the next phrase; conversely, in a
mounted typewriter the transition taken at each of these two boundaries is that flip. -/
theorem charIdx_bounds_and_flips (texts : List JSString) (speed pause : ℚ)
    (s : TWState) (cur : JSString) (hne : texts ≠ [])
    (hr : Reachable texts speed pause s) (hcur : texts[s.idx]? = some cur) :
    (0 ≤ s.charIdx ∧ s.charIdx ≤ (cur.length : Int)) ∧
    (∀ s', Step texts speed pause s s' →
      (s.deleting = false → s'.deleting = true → s.charIdx = (cur.length : Int)) ∧
      (s.deleting = true → s'.deleting = false →
        s.charIdx = 0 ∧ s'.idx = (s.idx + 1) % texts.length)) ∧
    (s.deleting = false → s.charIdx = (cur.length : Int) →
      ∃ s', tick texts speed pause s = some s' ∧ s'.deleting = true ∧
        s'.idx = s.idx ∧ s'.charIdx = s.charIdx) ∧
    (s.deleting = true → s.charIdx = 0 →
      ∃ s', tick texts speed pause s = some s' ∧ s'.deleting = false ∧
        s'.idx = (s.idx + 1) % texts.length ∧ s'.charIdx = 0) := by
  have h := Inv.of_reachable hne hr
  refine ⟨⟨h.char_nonneg, h.char_le cur hcur⟩, ?_, ?_, ?_⟩
  · intro s' st
    have same : ∀ u : TWState, u.deleting = s.deleting →
        (s.deleting = false → u.deleting = true → s.charIdx = (cur.length : Int)) ∧
        (s.deleting = true → u.deleting = false →
          s.charIdx = 0 ∧ u.idx = (s.idx + 1) % texts.length) := by
      intro u hu
      constructor
      · intro h1 h2
        rw [hu, h1] at h2
        cases h2
      · intro h1 h2
        rw [hu, h1] at h2
        cases h2
    cases st with
    | effect hm he =>
      rcases (effect_core h he).2 with ⟨hd, hc, hi, hd', _⟩ | ⟨_, _, hd', _⟩
      · constructor
        · intro h1 _
          rw [hd] at h1
          cases h1
        · intro _ _
          exact ⟨hc, hi⟩
      · exact same _ hd'
    | fire t ht =>
      rcases (fire_core h hcur ht).2 with hd' | ⟨hd, hc, hd'⟩
      · exact same _ hd'
      · constructor
        · intro _ _
          exact hc
        · intro h1 _
          rw [hd] at h1
          cases h1
    | teardown _ => exact same _ rfl
  · intro hd hc
    exact ⟨_, tick_of_tickT (tickT_pause h.cleanup_pending hcur hd hc), rfl, rfl, rfl⟩
  · intro hd hc
    exact ⟨_, tick_of_tickT (tickT_advance h.cleanup_pending hcur hd hc), rfl, rfl, hc⟩

theorem charIdx_bounds_and_flips_witness :
    (0 ≤ staleAB.charIdx ∧ staleAB.charIdx ≤ ((['A'] : JSString).length : Int)) ∧
    (∀ s', Step phrasesAB 60 2000 staleAB s' →
      (staleAB.deleting = false → s'.deleting = true →
        staleAB.charIdx = ((['A'] : JSString).length : Int)) ∧
      (staleAB.deleting = true → s'.deleting = false →
        staleAB.charIdx = 0 ∧ s'.idx = (staleAB.idx + 1) % phrasesAB.length)) ∧
    (staleAB.deleting = false → staleAB.charIdx = ((['A'] : JSString).length : Int) →
      ∃ s', tick phrasesAB 60 2000 staleAB = some s' ∧ s'.deleting = true ∧
        s'.idx = staleAB.idx ∧ s'.charIdx = staleAB.charIdx) ∧
    (staleAB.deleting = true → staleAB.charIdx = 0 →
      ∃ s', tick phrasesAB 60 2000 staleAB = some s' ∧ s'.deleting = false ∧
        s'.idx = (staleAB.idx + 1) % phrasesAB.length ∧ s'.charIdx = 0) :=
  charIdx_bounds_and_flips phrasesAB 60 2000 staleAB ['A'] (by decide) reachable_staleAB rfl

/-- C2: for a non-empty list of `n` phrases, the `k`-th full-display state (counting from
0) visited after mount exists for every `k` and shows `texts[k % n]`: the typewriter goes
through all phrases in order and starts over with the first, indefinitely. -/
theorem kth_full_display (texts : List JSString) (speed pause : ℚ) (hne : texts ≠ [])
    (k : Nat) :
    (∃ m, k < (fullDisplays texts speed pause m).length) ∧
    ∀ m, k < (fullDisplays texts speed pause m).length →
      (fullDisplays texts speed pause m)[k]? = texts[k % texts.length]? := by
  have hpos : 0 < texts.length := List.length_pos.mpr hne
  have hlt : k % texts.length < texts.length := Nat.mod_lt _ hpos
  constructor
  · obtain ⟨_, _, _, _, hfd⟩ := visits speed pause hne (k + 1)
    exact ⟨ticksBefore texts (k + 1), by rw [hfd]; simp⟩
  · intro m hk
    obtain ⟨_, _, _, _, hfd⟩ := visits speed pause hne m
    obtain ⟨d, hd⟩ := Nat.exists_eq_add_of_le (le_ticksBefore texts m)
    have hpre : fullDisplays texts speed pause m <+:
        (List.range m).map (fun j => texts.getD (j % texts.length) []) := by
      rw [← hfd, hd]
      exact List.IsPrefix.filterMap _ (trace_initial m d TWState.init)
    have hkm : k < m := by
      have := hpre.length_le
      simp only [List.length_map, List.length_range] at this
      omega
    rw [List.getElem?_eq_getElem hk, hpre.getElem hk, List.getElem?_eq_getElem hlt]
    simp only [List.getElem_map, List.getElem_range, List.getD_eq_getElem?_getD,
      List.getElem?_eq_getElem hlt, Option.getD_some]

theorem kth_full_display_witness :
    (∃ m, 3 < (fullDisplays phrasesAB 60 2000 m).length) ∧
    ∀ m, 3 < (fullDisplays phrasesAB 60 2000 m).length →
      (fullDisplays phrasesAB 60 2000 m)[3]? = phrasesAB[3 % phrasesAB.length]? :=
  kth_full_display phrasesAB 60 2000 (by decide) 3

/-- The list `["A", "BB"]` of C2: the full displays alternate A, BB, A, BB, ... -/
theorem fullDisplays_AB (k m : Nat) (hk : k < (fullDisplays phrasesAB 60 2000 m).length) :
    (fullDisplays phrasesAB 60 2000 m)[k]? =
      some (if k % 2 = 0 then ['A'] else ['B', 'B']) := by
  have hpos : 0 < phrasesAB.length := by decide
  obtain ⟨_, _, _, _, hfd⟩ := @visits phrasesAB 60 2000 (by decide) m
  obtain ⟨d, hd⟩ := Nat.exists_eq_add_of_le (le_ticksBefore phrasesAB m)
  have hpre : fullDisplays phrasesAB 60 2000 m <+:
      (List.range m).map (fun j => phrasesAB.getD (j % phrasesAB.length) []) := by
    rw [← hfd, hd]
    exact List.IsPrefix.filterMap _ (trace_initial m d TWState.init)
  rw [List.getElem?_eq_getElem hk, hpre.getElem hk]
  simp only [List.getElem_map, List.getElem_range]
  have h2 : phrasesAB.length = 2 := rfl
  rw [h2]
  rcases Nat.mod_two_eq_zero_or_one k with h | h <;> simp [h, phrasesAB]

theorem ticksBefore_single (p : JSString) (k : Nat) :
    ticksBefore [p] k = (2 * p.length + 2) * k := by
  induction k with
  | zero => rfl
  | succ k ih =>
    simp only [ticksBefore, ih, phraseTicks, List.length_singleton, Nat.mod_one]
    simp only [List.getD_eq_getElem?_getD, List.getElem?_cons_zero, Option.getD_some]
    ring

/-- C6: for a single-phrase list `[p]`, `idx` is 0 in every reachable state, and for every
`k` the run from mount reaches the start of the `k`-th visit of `p` (idx 0, charIdx 0,
growing), then the full display of `p`, then the fully deleted `p`, from which the next
transition is the start of visit `k + 1`: the same phrase is typed again forever. -/
theorem single_phrase_cycles (p : JSString) (speed pause : ℚ) :
    (∀ s, Reachable [p] speed pause s → s.idx = 0) ∧
    ∀ k : Nat,
      (∃ s, run [p] speed pause ((2 * p.length + 2) * k) TWState.init = some s ∧
        AtPos s 0 0 false) ∧
      (∃ s, run [p] speed pause ((2 * p.length + 2) * k + p.length) TWState.init = some s ∧
        AtPos s 0 (p.length : Int) false ∧ fullShown [p] speed pause s = some p) ∧
      (∃ s, run [p] speed pause ((2 * p.length + 2) * k + (2 * p.length + 1)) TWState.init
          = some s ∧ AtPos s 0 0 true ∧
        ∃ s', tick [p] speed pause s = some s' ∧ AtPos s' 0 0 false) := by
  have hne : ([p] : List JSString) ≠ [] := by simp
  constructor
  · intro s hr
    have h := (Inv.of_reachable hne hr).idx_lt
    simp only [List.length_singleton] at h
    omega
  · intro k
    obtain ⟨s, a, hr, hat, _⟩ := visits speed pause hne k
    rw [ticksBefore_single] at hr
    simp only [List.length_singleton, Nat.mod_one] at hat
    have hcur : ([p] : List JSString)[0]? = some p := rfl
    obtain ⟨sF, sD, sZ, s', hrF, hF, htD, hD, hrZ, hZ, htA, hA, _⟩ :=
      phrase_seg speed pause hcur s hat
    have r1 := runT_trans _ _ _ _ _ _ _ hr hrF
    have r2 := runT_succ htD hrZ
    have r3 := runT_trans _ _ _ _ _ _ _ hrF r2
    have r4 := runT_trans _ _ _ _ _ _ _ hr r3
    refine ⟨⟨s, run_of_runT hr, hat⟩, ⟨sF, run_of_runT r1, hF, ?_⟩, ⟨sZ, ?_, hZ, s', ?_, ?_⟩⟩
    · exact fullShown_full hF.cleanup_empty (by rw [hF.2.1]; exact hcur) hF.2.2.2 hF.2.2.1
    · rw [show 2 * p.length + 1 = p.length + (p.length + 1) by omega]
      exact run_of_runT r4
    · exact tick_of_tickT htA
    · simpa using hA

/-- C7: with the pending timers explicit, in every reachable state at most one timer is
pending; the cleanup that opens every effect run empties the timer table, so the timer an
effect run leaves is the one it scheduled itself and none scheduled before; a timer that
fires leaves none pending; unmount leaves none pending, and after unmount no event can
happen, so `charIdx`, `deleting` and `idx` keep their values. -/
theorem at_most_one_timer (texts : List JSString) (speed pause : ℚ) (s : TWState)
    (hne : texts ≠ []) (hr : Reachable texts speed pause s) :
    s.pending.length ≤ 1 ∧
    (cleanup s).pending = [] ∧
    (∀ s', runEffect texts speed pause s = some s' →
      s'.pending.length ≤ 1 ∧ ∀ t ∈ s'.pending, t.handle = s.nextHandle ∧ t ∉ s.pending) ∧
    (∀ t ∈ s.pending, (fire t s).pending = []) ∧
    (teardown s).pending = [] ∧
    ∀ u, Relation.ReflTransGen (Step texts speed pause) (teardown s) u →
      u = teardown s ∧ u.charIdx = s.charIdx ∧ u.deleting = s.deleting ∧ u.idx = s.idx := by
  have h := Inv.of_reachable hne hr
  obtain ⟨cur, hcur⟩ := h.current
  refine ⟨?_, h.cleanup_pending, ?_, ?_, h.cleanup_pending, ?_⟩
  · rcases h.pend with hp | ⟨t, hp, _⟩
    · simp [hp]
    · simp [hp]
  · intro s' he
    rcases (effect_core h he).2 with ⟨_, _, _, _, hp'⟩ | ⟨_, _, _, t, hp', hth⟩
    · simp [hp']
    · refine ⟨by simp [hp'], ?_⟩
      intro t' ht'
      rw [hp'] at ht'
      have e : t' = t := by simpa using ht'
      subst e
      refine ⟨hth, ?_⟩
      intro hmem
      rcases h.pend with hp | ⟨u, hp, _, hu⟩
      · rw [hp] at hmem
        cases hmem
      · rw [hp] at hmem
        have e : t' = u := by simpa using hmem
        subst e
        have := (hu cur hcur).2.1
        omega
  · intro t ht
    have hp := (h.fire ht).pend
    rcases h.pend with hp0 | ⟨u, hp0, _, _⟩
    · rw [hp0] at ht
      cases ht
    · rw [hp0] at ht
      have e : t = u := by simpa using ht
      subst e
      have e2 : (fire t s).pending =
          s.pending.filter (fun u => u.handle != t.handle) := by
        unfold fire applyCallback
        cases t.callback <;> rfl
      rw [e2, hp0]
      simp
  · intro u hu
    have e := @no_step_unmounted texts speed pause (teardown s) u rfl h.cleanup_pending hu
    subst e
    exact ⟨rfl, rfl, rfl, rfl⟩

theorem at_most_one_timer_witness :
    typingAB.pending.length ≤ 1 ∧
    (cleanup typingAB).pending = [] ∧
    (∀ s', runEffect phrasesAB 60 2000 typingAB = some s' →
      s'.pending.length ≤ 1 ∧
        ∀ t ∈ s'.pending, t.handle = typingAB.nextHandle ∧ t ∉ typingAB.pending) ∧
    (∀ t ∈ typingAB.pending, (fire t typingAB).pending = []) ∧
    (teardown typingAB).pending = [] ∧
    ∀ u, Relation.ReflTransGen (Step phrasesAB 60 2000) (teardown typingAB) u →
      u = teardown typingAB ∧ u.charIdx = typingAB.charIdx ∧
        u.deleting = typingAB.deleting ∧ u.idx = typingAB.idx :=
  at_most_one_timer phrasesAB 60 2000 typingAB (by decide) reachable_typingAB

/-! ## Proofs and claims: active-section tracker -/

theorem observerCallback_append (xs ys : List Entry) (s : AppState) :
    observerCallback (xs ++ ys) s = observerCallback ys (observerCallback xs s) := by
  simp [observerCallback, List.foldl_append]

theorem observerCallback_cons (e : Entry) (es : List Entry) (s : AppState) :
    observerCallback (e :: es) s =
      observerCallback es (if e.isIntersecting then setActive e.targetId s else s) := rfl

/-- A batch without an intersecting entry changes nothing. -/
theorem observerCallback_none (es : List Entry) (s : AppState)
    (h : ∀ x ∈ es, x.isIntersecting = false) : observerCallback es s = s := by
  induction es generalizing s with
  | nil => rfl
  | cons e es ih =>
    rw [observerCallback_cons, h e (List.mem_cons_self _ _)]
    exact ih s (fun x hx => h x (List.mem_cons_of_mem _ hx))

/-- C8: whatever the state and the earlier entries of a batch, after the callback has
processed the batch the active identifier is the target id of the last entry of the batch
that is intersecting. -/
theorem last_intersecting_wins (s : AppState) (pre post : List Entry) (e : Entry)
    (he : e.isIntersecting = true) (hpost : ∀ x ∈ post, x.isIntersecting = false) :
    (observerCallback (pre ++ e :: post) s).active = e.targetId := by
  rw [observerCallback_append, observerCallback_cons, he, observerCallback_none post _ hpost]
  rfl

theorem last_intersecting_wins_witness :
    (observerCallback
      ([⟨true, "experience"⟩] ++ (⟨true, "projects"⟩ : Entry) :: [⟨false, "home"⟩])
      trackerStart).active = (⟨true, "projects"⟩ : Entry).targetId :=
  last_intersecting_wins trackerStart [⟨true, "experience"⟩] [⟨false, "home"⟩]
    ⟨true, "projects"⟩ rfl (by decide)

/-- The example of C8 with sections home, experience, projects: an entry event for
"experience" makes it active, a later one for "projects" overrides it. -/
theorem tracker_example :
    (observerCallback [⟨true, "experience"⟩] trackerStart).active = "experience" ∧
    (observerCallback [⟨true, "projects"⟩]
      (observerCallback [⟨true, "experience"⟩] trackerStart)).active = "projects" := by
  decide

/-- C9: after the tracker is torn down, invoking its callback leaves the active
identifier at its last value before the teardown, for every active value and every batch,
intersecting entries included: one stale invocation changes nothing, nor does any sequence
of them, and the torn-down observer has no target left for the host to report; whereas on
the mounted component the same callback does set the active identifier. -/
theorem stale_callback_keeps_active (c : AppInstance) (entries : List Entry)
    (batches : List (List Entry)) :
    ((c.teardown).invoke entries).state.active = c.state.active ∧
    (c.teardown).invoke entries = c.teardown ∧
    (batches.foldl (fun d b => d.invoke b) c.teardown).state.active = c.state.active ∧
    (c.teardown).state.observed = [] ∧
    hostDeliver entries (c.teardown).state = (c.teardown).state ∧
    (∀ e : Entry, c.mounted = true → e.isIntersecting = true →
      (c.invoke [e]).state.active = e.targetId) ∧
    (experienceMounted.invoke [⟨true, "projects"⟩]).state.active = "projects" ∧
    ((experienceMounted.teardown).invoke [⟨true, "projects"⟩]).state.active
      = "experience" := by
  have hfold : ∀ (bs : List (List Entry)),
      bs.foldl (fun d b => d.invoke b) c.teardown = c.teardown := by
    intro bs
    induction bs with
    | nil => rfl
    | cons b bs ih =>
      rw [List.foldl_cons]
      exact ih
  refine ⟨rfl, rfl, by rw [hfold]; rfl, rfl, ?_, ?_, by decide, by decide⟩
  · simp [hostDeliver, AppInstance.teardown, effectCleanup, observerCallback]
  · intro e hm hi
    simp [AppInstance.invoke, hm, observerCallback, hi, setActive]

/-! ## Proofs and claims: clipboard acknowledgement -/

/-- C10 as stated fails: with copies at 0 ms and 1000 ms two timers are pending at the same
time, and the flag is already false at 2500 ms, inside `[0, 1000 + 2500)`. -/
theorem second_copy_does_not_restart :
    (footerAt [(0, true), (1000, true)] 1000).timers = [2500, 3500] ∧
    (footerAt [(0, true), (1000, true)] 2499).copied = true ∧
    (footerAt [(0, true), (1000, true)] 2500).copied = false ∧
    2500 < 1000 + 2500 := by
  decide

/-- C10, amended: one successful copy at `t1` makes `copied` true exactly during
`[t1, t1 + 2500)`. A second copy at `t2` with `t1 ≤ t2 < t1 + 2500` schedules a second
timer next to the first: both are pending during `[t2, t1 + 2500)`, `copied` is true during
`[t1, t1 + 2500)` and false from `t1 + 2500` on, where the first timer fires. -/
theorem copy_flag_timeline (t1 t2 t : Nat) (h12 : t1 ≤ t2) (h : t2 < t1 + 2500) :
    ((footerAt [(t1, true)] t).copied = true ↔ t1 ≤ t ∧ t < t1 + 2500) ∧
    (t < t1 → (footerAt [(t1, true), (t2, true)] t).copied = false) ∧
    (t1 ≤ t → t < t1 + 2500 → (footerAt [(t1, true), (t2, true)] t).copied = true) ∧
    (t1 + 2500 ≤ t → (footerAt [(t1, true), (t2, true)] t).copied = false) ∧
    (t2 ≤ t → t < t1 + 2500 →
      (footerAt [(t1, true), (t2, true)] t).timers = [t1 + 2500, t2 + 2500]) := by
  have a1 : ¬ (t1 + 2500 ≤ t1) := by omega
  have a2 : ¬ (t1 + 2500 ≤ t2) := by omega
  have a3 : ¬ (t2 + 2500 ≤ t2) := by omega
  refine ⟨?_, ?_, ?_, ?_, ?_⟩
  · by_cases h1 : t1 ≤ t
    · by_cases h2 : t1 + 2500 ≤ t
      · have : ¬ t < t1 + 2500 := by omega
        simp [footerAt, h1, h2, fireDue, FooterState.init, handleCopy, a1, List.filter,
          fireReset, this]
      · have : t < t1 + 2500 := by omega
        simp [footerAt, h1, h2, fireDue, FooterState.init, handleCopy, a1, List.filter, this]
    · simp [footerAt, h1, fireDue, FooterState.init]
  · intro h1
    have b1 : ¬ t1 ≤ t := by omega
    have b2 : ¬ t2 ≤ t := by omega
    simp [footerAt, b1, b2, fireDue, FooterState.init]
  · intro h1 h2
    have b1 : ¬ (t1 + 2500 ≤ t) := by omega
    by_cases h3 : t2 ≤ t
    · have b2 : ¬ (t2 + 2500 ≤ t) := by omega
      simp [footerAt, h1, h3, fireDue, FooterState.init, handleCopy, a1, a2, a3, b1, b2,
        List.filter]
    · simp [footerAt, h1, h3, fireDue, FooterState.init, handleCopy, a1, a2, a3, b1,
        List.filter]
  · intro h1
    have b1 : t1 ≤ t := by omega
    have b2 : t2 ≤ t := by omega
    by_cases h3 : t2 + 2500 ≤ t
    · simp [footerAt, b1, b2, fireDue, FooterState.init, handleCopy, a1, a2, a3, h1, h3,
        List.filter, fireReset]
    · simp [footerAt, b1, b2, fireDue, FooterState.init, handleCopy, a1, a2, a3, h1, h3,
        List.filter, fireReset]
  · intro h1 h2
    have b0 : t1 ≤ t := by omega
    have b1 : ¬ (t1 + 2500 ≤ t) := by omega
    have b2 : ¬ (t2 + 2500 ≤ t) := by omega
    simp [footerAt, h1, b0, fireDue, FooterState.init, handleCopy, a1, a2, a3, b1, b2,
      List.filter]

theorem copy_flag_timeline_witness :
    ((footerAt [(0, true)] 3000).copied = true ↔ 0 ≤ 3000 ∧ 3000 < 0 + 2500) ∧
    (3000 < 0 → (footerAt [(0, true), (1000, true)] 3000).copied = false) ∧
    (0 ≤ 3000 → 3000 < 0 + 2500 → (footerAt [(0, true), (1000, true)] 3000).copied = true) ∧
    (0 + 2500 ≤ 3000 → (footerAt [(0, true), (1000, true)] 3000).copied = false) ∧
    (1000 ≤ 3000 → 3000 < 0 + 2500 →
      (footerAt [(0, true), (1000, true)] 3000).timers = [0 + 2500, 1000 + 2500]) :=
  copy_flag_timeline 0 1000 3000 (by decide) (by decide)

/-! ## Claims: denial, activation, exits, initial value, registry -/

theorem fireDue_init (t : Nat) : fireDue t FooterState.init = FooterState.init := rfl

/-- Copies that are all denied, or not yet settled at `t`, leave the mount state. -/
theorem footer_fold_denied (t : Nat) (copies : List (Nat × Bool))
    (h : ∀ c ∈ copies, c.1 ≤ t → c.2 = false) :
    copies.foldl
      (fun st c => if c.1 ≤ t then handleCopy c.2 c.1 (fireDue c.1 st) else st)
      FooterState.init = FooterState.init := by
  induction copies with
  | nil => rfl
  | cons c cs ih =>
    rw [List.foldl_cons]
    have hc := h c (List.mem_cons_self _ _)
    have hstep : (if c.1 ≤ t then handleCopy c.2 c.1 (fireDue c.1 FooterState.init)
        else FooterState.init) = FooterState.init := by
      by_cases hle : c.1 ≤ t
      · rw [if_pos hle, hc hle, fireDue_init]
        rfl
      · rw [if_neg hle]
    rw [hstep]
    exact ih (fun c' hc' => h c' (List.mem_cons_of_mem _ hc'))

/-- C11: when the clipboard write is denied, `handleCopy` leaves the Footer state exactly
as it was: `copied` is not set and no reset timer is scheduled; after any number of denied
copies the Footer is still in its mount state; and whenever `copied` is true, a copy that
settled by then was a successful write. -/
theorem denied_copy_leaves_state (now t : Nat) (s : FooterState) (times : List Nat)
    (copies : List (Nat × Bool)) :
    handleCopy false now s = s ∧
    (handleCopy false now s).copied = s.copied ∧
    (handleCopy false now s).timers = s.timers ∧
    footerAt (times.map (fun c => (c, false))) t = FooterState.init ∧
    ((footerAt copies t).copied = true → ∃ c ∈ copies, c.1 ≤ t ∧ c.2 = true) := by
  refine ⟨rfl, rfl, rfl, ?_, ?_⟩
  · unfold footerAt
    rw [footer_fold_denied t _ (by
      intro c hc _
      obtain ⟨x, _, rfl⟩ := List.mem_map.mp hc
      rfl)]
    rfl
  · intro hcop
    by_contra hno
    have hall : ∀ c ∈ copies, c.1 ≤ t → c.2 = false := by
      intro c hc hle
      cases h2 : c.2
      · rfl
      · exact absurd ⟨c, hc, hle, h2⟩ hno
    unfold footerAt at hcop
    rw [footer_fold_denied t copies hall] at hcop
    cases hcop

theorem observe_active (id : String) (s : AppState) : (observe id s).active = s.active := by
  unfold observe
  split <;> rfl

/-- The activation loop over any list of distinct ids not yet observed. -/
theorem foldl_observe (rendered : String → Bool) (ids : List String) :
    ∀ s : AppState, ids.Nodup → (∀ id ∈ ids, id ∉ s.observed) →
      (ids.foldl (fun st id => if rendered id then observe id st else st) s).observed =
          s.observed ++ ids.filter rendered ∧
      (ids.foldl (fun st id => if rendered id then observe id st else st) s).active =
          s.active := by
  induction ids with
  | nil => intro s _ _; simp
  | cons id ids ih =>
    intro s hnd hfresh
    rw [List.nodup_cons] at hnd
    rw [List.foldl_cons]
    by_cases hr : rendered id = true
    · have hnot : id ∉ s.observed := hfresh id (List.mem_cons_self _ _)
      have hobs : observe id s = { s with observed := s.observed ++ [id] } := by
        simp [observe, hnot]
      rw [if_pos hr, hobs]
      have := ih { s with observed := s.observed ++ [id] } hnd.2 (by
        intro id' hid' hmem
        rcases List.mem_append.mp hmem with h1 | h1
        · exact hfresh id' (List.mem_cons_of_mem _ hid') h1
        · rw [List.mem_singleton] at h1
          subst h1
          exact hnd.1 hid')
      rw [this.1, this.2]
      simp [List.filter_cons, hr]
    · rw [if_neg hr]
      have := ih s hnd.2 (fun id' hid' => hfresh id' (List.mem_cons_of_mem _ hid'))
      rw [this.1, this.2]
      simp [List.filter_cons, hr]

theorem sections_nodup : SECTIONS.Nodup := by decide

theorem mount_observed (rendered : List String) :
    (Page.mount rendered).app.observed = SECTIONS.filter (fun id => decide (id ∈ rendered)) ∧
    (Page.mount rendered).app.active = "home" := by
  have h := foldl_observe (fun id => decide (id ∈ rendered)) SECTIONS AppState.init
    sections_nodup (by intro id _ hmem; cases hmem)
  have e : (Page.mount rendered).app =
      SECTIONS.foldl (fun st id => if decide (id ∈ rendered) = true then observe id st else st)
        AppState.init := rfl
  rw [e]
  refine ⟨?_, h.2⟩
  rw [h.1]
  rfl

/-- The guarded loop never throws: it computes what `activate` computes. -/
theorem foldlM_observe (rendered : List String) (ids : List String) :
    ∀ s : AppState,
      ids.foldlM
        (fun st id =>
          let el := getElementById rendered id
          if el.isSome then observeElement el st else some st) s =
      some (ids.foldl
        (fun st id => if decide (id ∈ rendered) then observe id st else st) s) := by
  induction ids with
  | nil => intro s; rfl
  | cons id ids ih =>
    intro s
    rw [List.foldlM_cons, List.foldl_cons]
    by_cases hr : id ∈ rendered
    · simp only [getElementById, hr, if_true, Option.isSome_some, observeElement,
        decide_True, Option.some_bind, Option.bind_eq_bind]
      exact ih _
    · simp only [getElementById, hr, if_false, Option.isSome_none, decide_False,
        Option.some_bind, Option.bind_eq_bind, Bool.false_eq_true]
      exact ih _

theorem observerCallback_observed (es : List Entry) :
    ∀ s : AppState, (observerCallback es s).observed = s.observed := by
  induction es with
  | nil => intro s; rfl
  | cons e es ih =>
    intro s
    rw [observerCallback_cons, ih]
    split <;> rfl

theorem run_observed (events : List TrackerEvent) :
    ∀ p : Page, (p.run events).app.observed = p.app.observed := by
  induction events with
  | nil => intro p; rfl
  | cons ev evs ih =>
    intro p
    have h : p.run (ev :: evs) = (p.step ev).run evs := rfl
    rw [h, ih]
    cases ev with
    | deliver es => exact observerCallback_observed _ _
    | create id => rfl

/-- C12: for every set of rendered element ids, activation never throws (also when no
section is rendered), observes exactly the identifiers of `SECTIONS` whose element exists,
in `SECTIONS` order and each once, and no later event (a delivered batch, a region created
afterwards) changes what is observed. -/
theorem activation_skips_missing (rendered : List String) (events : List TrackerEvent) :
    activateChecked rendered AppState.init = some (Page.mount rendered).app ∧
    activateChecked [] AppState.init = some AppState.init ∧
    (Page.mount rendered).app.observed =
      SECTIONS.filter (fun id => decide (id ∈ rendered)) ∧
    (Page.mount rendered).app.observed.Nodup ∧
    (∀ id, id ∈ (Page.mount rendered).app.observed ↔ id ∈ SECTIONS ∧ id ∈ rendered) ∧
    ((Page.mount rendered).run events).app.observed =
      SECTIONS.filter (fun id => decide (id ∈ rendered)) := by
  have hm := (mount_observed rendered).1
  refine ⟨foldlM_observe rendered SECTIONS AppState.init, ?_, hm, ?_, ?_, ?_⟩
  · rw [activateChecked, foldlM_observe [] SECTIONS AppState.init]
    rfl
  · rw [hm]
    exact sections_nodup.filter _
  · intro id
    rw [hm, List.mem_filter]
    simp
  · rw [run_observed, hm]

/-- C13: a batch in which no entry is intersecting leaves the tracker state, and so the
active identifier, unchanged, whether the callback is invoked on it or the host delivers
it; and whenever a batch does change the active identifier, it contains an intersecting
entry. -/
theorem exit_batch_keeps_active (s : AppState) (es : List Entry)
    (h : ∀ e ∈ es, e.isIntersecting = false) :
    observerCallback es s = s ∧ (observerCallback es s).active = s.active ∧
    hostDeliver es s = s ∧
    ∀ (s' : AppState) (es' : List Entry), (observerCallback es' s').active ≠ s'.active →
      ∃ e ∈ es', e.isIntersecting = true := by
  have h1 := observerCallback_none es s h
  refine ⟨h1, by rw [h1], ?_, ?_⟩
  · exact observerCallback_none _ s (fun e he => h e (List.mem_of_mem_filter he))
  · intro s' es' hne
    by_contra hno
    apply hne
    rw [observerCallback_none es' s' (by
      intro e he
      cases hi : e.isIntersecting
      · rfl
      · exact absurd ⟨e, he, hi⟩ hno)]

theorem exit_batch_keeps_active_witness :
    observerCallback [⟨false, "home"⟩, ⟨false, "experience"⟩, ⟨false, "projects"⟩]
        projectsActive = projectsActive ∧
    (observerCallback [⟨false, "home"⟩, ⟨false, "experience"⟩, ⟨false, "projects"⟩]
        projectsActive).active = projectsActive.active ∧
    hostDeliver [⟨false, "home"⟩, ⟨false, "experience"⟩, ⟨false, "projects"⟩]
        projectsActive = projectsActive ∧
    ∀ (s' : AppState) (es' : List Entry), (observerCallback es' s').active ≠ s'.active →
      ∃ e ∈ es', e.isIntersecting = true :=
  exit_batch_keeps_active projectsActive
    [⟨false, "home"⟩, ⟨false, "experience"⟩, ⟨false, "projects"⟩] (by decide)

theorem step_quiet (p : Page) (ev : TrackerEvent) (h : ev.quiet = true) :
    (p.step ev).app = p.app := by
  cases ev with
  | deliver es =>
    have hq : ∀ e ∈ es, e.isIntersecting = false := by
      intro e he
      have := List.all_eq_true.mp h e he
      simpa using this
    exact observerCallback_none _ _ (fun e he => hq e (List.mem_of_mem_filter he))
  | create id => rfl

theorem run_quiet (events : List TrackerEvent) :
    ∀ p : Page, (∀ ev ∈ events, ev.quiet = true) → (p.run events).app = p.app := by
  induction events with
  | nil => intro p _; rfl
  | cons ev evs ih =>
    intro p h
    have e : p.run (ev :: evs) = (p.step ev).run evs := rfl
    rw [e, ih _ (fun ev' h' => h ev' (List.mem_cons_of_mem _ h')),
      step_quiet p ev (h ev (List.mem_cons_self _ _))]

/-- C14: `App` starts with `active` equal to `SECTIONS[0]`, that is "home"; activation
keeps it; and it stays "home" through every sequence of events in which no delivered batch
contains an intersecting entry. -/
theorem initial_active_is_first_section (rendered : List String)
    (events : List TrackerEvent) (h : ∀ ev ∈ events, ev.quiet = true) :
    AppState.init.active = "home" ∧ SECTIONS[0]? = some AppState.init.active ∧
    (Page.mount rendered).app.active = "home" ∧
    ((Page.mount rendered).run events).app.active = "home" := by
  refine ⟨rfl, rfl, (mount_observed rendered).2, ?_⟩
  rw [run_quiet events _ h]
  exact (mount_observed rendered).2

theorem initial_active_is_first_section_witness :
    AppState.init.active = "home" ∧ SECTIONS[0]? = some AppState.init.active ∧
    (Page.mount SECTIONS).app.active = "home" ∧
    ((Page.mount SECTIONS).run
      [.deliver [⟨false, "home"⟩], .create "contact", .deliver [⟨false, "skills"⟩]]).app.active
        = "home" :=
  initial_active_is_first_section SECTIONS
    [.deliver [⟨false, "home"⟩], .create "contact", .deliver [⟨false, "skills"⟩]] (by decide)

/-- C15: the identifiers of `SECTIONS` are pairwise distinct; the ids of `navItems` are
`SECTIONS`, element for element in the same order; the ids of the rendered regions are the
same five identifiers; so each identifier names exactly one region and one entry of
`navItems`. -/
theorem registry_matches_nav_and_regions :
    SECTIONS.Nodup ∧ navItems.map Prod.fst = SECTIONS ∧ regionIds = SECTIONS ∧
    SECTIONS.length = 5 ∧
    ∀ id ∈ SECTIONS, regionIds.count id = 1 ∧ (navItems.map Prod.fst).count id = 1 := by
  decide

theorem highlighted_one (a : String) (h : a ∈ SECTIONS) : (highlighted a).length = 1 := by
  simp only [SECTIONS, List.mem_cons, List.mem_singleton, List.not_mem_nil, or_false] at h
  rcases h with rfl | rfl | rfl | rfl | rfl <;> decide

theorem observerCallback_mem (S : List String) (es : List Entry) :
    ∀ s : AppState, (∀ e ∈ es, e.targetId ∈ S) → s.active ∈ S →
      (observerCallback es s).active ∈ S := by
  induction es with
  | nil => intro s _ h; exact h
  | cons e es ih =>
    intro s hes h
    rw [observerCallback_cons]
    apply ih _ (fun e' he' => hes e' (List.mem_cons_of_mem _ he'))
    split
    · exact hes e (List.mem_cons_self _ _)
    · exact h

theorem run_active_mem (events : List TrackerEvent) :
    ∀ p : Page, (∀ id ∈ p.app.observed, id ∈ SECTIONS) → p.app.active ∈ SECTIONS →
      (p.run events).app.active ∈ SECTIONS := by
  induction events with
  | nil => intro p _ h; exact h
  | cons ev evs ih =>
    intro p hobs h
    have e : p.run (ev :: evs) = (p.step ev).run evs := rfl
    rw [e]
    cases ev with
    | deliver es =>
      apply ih
      · intro id hid
        have : (hostDeliver es p.app).observed = p.app.observed :=
          observerCallback_observed _ _
        exact hobs id (by rw [← this]; exact hid)
      · apply observerCallback_mem SECTIONS _ _ _ h
        intro e' he'
        have := (List.mem_filter.mp he').2
        exact hobs _ (by simpa using this)
    | create id => exact ih _ hobs h

/-- C19: in every state of `App` reached from mount by activation and then by batches the
host delivers (entries of observed regions; for such a batch delivery is the callback
itself), interleaved with later renders, the active identifier is a member of `SECTIONS`,
and exactly one entry of `navItems` satisfies `active === item.id`. -/
theorem exactly_one_highlighted (rendered : List String) (events : List TrackerEvent) :
    (AppState.init.active ∈ SECTIONS ∧ (highlighted AppState.init.active).length = 1) ∧
    ((Page.mount rendered).run events).app.active ∈ SECTIONS ∧
    (highlighted ((Page.mount rendered).run events).app.active).length = 1 ∧
    ∀ (s : AppState) (es : List Entry), (∀ e ∈ es, e.targetId ∈ s.observed) →
      hostDeliver es s = observerCallback es s := by
  have hmem : ((Page.mount rendered).run events).app.active ∈ SECTIONS := by
    apply run_active_mem
    · intro id hid
      rw [(mount_observed rendered).1] at hid
      exact (List.mem_filter.mp hid).1
    · rw [(mount_observed rendered).2]
      decide
  refine ⟨⟨by decide, by decide⟩, hmem, highlighted_one _ hmem, ?_⟩
  intro s es hes
  unfold hostDeliver
  rw [List.filter_eq_self.mpr (by
    intro e he
    simpa using hes e he)]

/-! ## Claims: branches of the effect -/

/-- C17: for a non-empty phrase list (empty phrases included), in every reachable state
exactly one of the four branch conditions holds, and the effect run schedules a timer or
updates the state, so the machine is never stuck; among the states whose `charIdx` is a
count of characters (not negative), those in which no branch applies are exactly the ones
with `deleting` false and `charIdx > texts[idx].length`, and no reachable state is one of
them; for an empty active phrase, while growing the pause branch applies (not grow, not
advance), and the transition after it is the advance. -/
theorem one_branch_applies (texts : List JSString) (speed pause : ℚ) (s : TWState)
    (cur : JSString) (hne : texts ≠ []) (hr : Reachable texts speed pause s)
    (hcur : texts[s.idx]? = some cur) :
    (branchConds cur s).count true = 1 ∧
    (∃ s', runEffect texts speed pause s = some s' ∧
      (s'.pending ≠ [] ∨ s'.deleting ≠ s.deleting)) ∧
    (∀ (u : TWState) (c : JSString), 0 ≤ u.charIdx →
      (noBranch c u = true ↔ u.deleting = false ∧ (c.length : Int) < u.charIdx)) ∧
    0 ≤ s.charIdx ∧ noBranch cur s = false ∧
    ¬ (s.deleting = false ∧ (cur.length : Int) < s.charIdx) ∧
    (cur = [] → s.deleting = false →
      pauseCond cur s = true ∧ growCond cur s = false ∧ advanceCond s = false ∧
      ∃ s1 s2, tick texts speed pause s = some s1 ∧ advanceCond s1 = true ∧
        tick texts speed pause s1 = some s2 ∧
        s2.idx = (s.idx + 1) % texts.length ∧ s2.deleting = false) := by
  have h := Inv.of_reachable hne hr
  have h0 := h.char_nonneg
  have hle := h.char_le cur hcur
  have hp := h.cleanup_pending
  have hall : ∀ (u : TWState) (c : JSString), 0 ≤ u.charIdx →
      (noBranch c u = true ↔ u.deleting = false ∧ (c.length : Int) < u.charIdx) := by
    intro u c hu
    simp only [noBranch, growCond, pauseCond, shrinkCond, advanceCond]
    cases u.deleting <;> simp <;> omega
  refine ⟨?_, ?_, hall, h0, ?_, ?_, ?_⟩
  · simp only [branchConds, growCond, pauseCond, shrinkCond, advanceCond]
    cases hd : s.deleting
    · rcases lt_or_eq_of_le hle with hc | hc
      · have : ¬ s.charIdx = (cur.length : Int) := by omega
        simp [hc, this]
      · have : ¬ s.charIdx < (cur.length : Int) := by omega
        simp [hc, this]
    · rcases lt_or_eq_of_le h0 with hc | hc
      · have : ¬ s.charIdx = 0 := by omega
        simp [hc, this]
      · have : ¬ 0 < s.charIdx := by omega
        simp [← hc]
  · obtain ⟨s', he⟩ := effect_total speed pause h
    refine ⟨s', he, ?_⟩
    rcases (effect_core h he).2 with ⟨hd, _, _, hd', _⟩ | ⟨_, _, _, t, hp', _⟩
    · right
      rw [hd, hd']
      decide
    · left
      rw [hp']
      exact List.cons_ne_nil _ _
  · cases hnb : noBranch cur s
    · rfl
    · have := ((hall s cur h0).mp hnb).2
      omega
  · rintro ⟨_, hc⟩
    omega
  · intro hce hd
    subst hce
    have hc0 : s.charIdx = (([] : JSString).length : Int) := by
      have : (([] : JSString).length : Int) = 0 := rfl
      omega
    have hc00 : s.charIdx = 0 := hc0
    refine ⟨by simp [pauseCond, hd, hc00], by simp [growCond, hd, hc00],
      by simp [advanceCond, hd], ?_⟩
    have t1 := @tickT_pause texts speed pause s [] hp hcur hd hc0
    refine ⟨_, _, tick_of_tickT t1, by simp [advanceCond, hc00],
      tick_of_tickT (tickT_advance (by simp [cleanup, clearTimeout]) hcur rfl hc00), rfl, rfl⟩

theorem one_branch_applies_witness :
    (branchConds [] TWState.init).count true = 1 ∧
    (∃ s', runEffect phrasesEmptyB 60 2000 TWState.init = some s' ∧
      (s'.pending ≠ [] ∨ s'.deleting ≠ TWState.init.deleting)) ∧
    (∀ (u : TWState) (c : JSString), 0 ≤ u.charIdx →
      (noBranch c u = true ↔ u.deleting = false ∧ (c.length : Int) < u.charIdx)) ∧
    0 ≤ TWState.init.charIdx ∧ noBranch [] TWState.init = false ∧
    ¬ (TWState.init.deleting = false ∧
        ((([] : JSString).length : Nat) : Int) < TWState.init.charIdx) ∧
    (([] : JSString) = [] → TWState.init.deleting = false →
      pauseCond [] TWState.init = true ∧ growCond [] TWState.init = false ∧
      advanceCond TWState.init = false ∧
      ∃ s1 s2, tick phrasesEmptyB 60 2000 TWState.init = some s1 ∧ advanceCond s1 = true ∧
        tick phrasesEmptyB 60 2000 s1 = some s2 ∧
        s2.idx = (TWState.init.idx + 1) % phrasesEmptyB.length ∧ s2.deleting = false) :=
  one_branch_applies phrasesEmptyB 60 2000 TWState.init [] (by decide) Reachable.init rfl

/-! ## Claims: periodicity -/

theorem ticksBefore_take (texts : List JSString) (k : Nat) (hk : k ≤ texts.length) :
    ticksBefore texts k = ((texts.take k).map (fun p => 2 * p.length + 2)).sum := by
  induction k with
  | zero => rfl
  | succ k ih =>
    have hlt : k < texts.length := hk
    have hmod : k % texts.length = k := Nat.mod_eq_of_lt hlt
    rw [ticksBefore, ih (Nat.le_of_lt hlt), List.take_succ, List.getElem?_eq_getElem hlt]
    simp only [phraseTicks, hmod, List.getD_eq_getElem?_getD, List.getElem?_eq_getElem hlt,
      Option.getD_some, Option.toList_some, List.map_append, List.map_cons, List.map_nil,
      List.sum_append, List.sum_cons, List.sum_nil, Nat.add_zero]

theorem ticksBefore_period (texts : List JSString) :
    ticksBefore texts texts.length = period texts := by
  rw [ticksBefore_take texts texts.length (Nat.le_refl _), List.take_length]
  rfl

theorem run_succ_inv {texts : List JSString} {speed pause : ℚ} {s u : TWState} {m : Nat}
    (h : run texts speed pause (m + 1) s = some u) :
    ∃ s1, tick texts speed pause s = some s1 ∧ run texts speed pause m s1 = some u := by
  cases ht : tickT texts speed pause s with
  | none => simp [run, runT, ht] at h
  | some p =>
    obtain ⟨w, c⟩ := p
    refine ⟨w, tick_of_tickT ht, ?_⟩
    cases hq : runT texts speed pause m w with
    | none => simp [run, runT, ht, hq] at h
    | some q =>
      simp only [run, runT, ht, hq, Option.some_bind, Option.map_some', Option.some.injEq] at h
      simp [run, hq, h]

/-- The `m`-th state of the run is the `m`-th entry of the trace. -/
theorem trace_getElem {texts : List JSString} {speed pause : ℚ} (n : Nat) :
    ∀ (s u : TWState) (m : Nat), run texts speed pause m s = some u → m < n →
      (trace texts speed pause n s)[m]? = some u := by
  induction n with
  | zero => intro s u m _ hm; omega
  | succ n ih =>
    intro s u m h hm
    cases m with
    | zero =>
      simp only [run, runT, Option.map_some', Option.some.injEq] at h
      subst h
      simp [trace]
    | succ m =>
      obtain ⟨s1, ht, hr⟩ := run_succ_inv h
      simp only [trace, ht, List.getElem?_cons_succ]
      exact ih s1 u m hr (by omega)

/-- While growing from `c` characters, no state shows fewer than `c`. -/
theorem grow_seg_lower {texts : List JSString} (speed pause : ℚ) {i : Nat} {cur : JSString}
    (hcur : texts[i]? = some cur) (k : Nat) :
    ∀ (s : TWState) (c : Nat), AtPos s i c false → c + k ≤ cur.length →
      ∀ u ∈ trace texts speed pause k s, (c : Int) ≤ u.charIdx := by
  induction k with
  | zero => intro s c _ _ u hu; simp [trace] at hu
  | succ k ih =>
    intro s c h hle u hu
    have hlt : (c : Int) < (cur.length : Int) := by omega
    obtain ⟨s1, ht, h1⟩ := grow_at speed pause h hcur hlt
    rw [trace_succ _ ht] at hu
    rcases List.mem_cons.mp hu with rfl | hu
    · rw [h.2.2.1]
    · have := ih s1 (c + 1) (by push_cast; exact h1) (by omega) u hu
      push_cast at this
      omega

/-- In a phrase visit every state after the first shows a character or is deleting. -/
theorem visit_tail {texts : List JSString} (speed pause : ℚ) {i : Nat} {cur : JSString}
    (hcur : texts[i]? = some cur) (s : TWState) (h : AtPos s i 0 false) :
    ∃ rest, trace texts speed pause (2 * cur.length + 2) s = s :: rest ∧
      ∀ u ∈ rest, u.charIdx ≠ 0 ∨ u.deleting = true := by
  obtain ⟨sF, hrF, hF, htrF⟩ := grow_seg speed pause hcur cur.length s 0
    (by simpa using h) (by omega)
  rw [Nat.zero_add] at hF
  obtain ⟨sD, htD, hD⟩ := pause_at speed pause hF hcur
  obtain ⟨sZ, hrZ, hZ, htrZ⟩ := shrink_seg speed pause hcur cur.length sD hD
  obtain ⟨s', htA, _, _⟩ := advance_at speed pause hZ hcur
  have r0 : ∀ u : TWState, runT texts speed pause 0 u = some (u, 0) := fun _ => rfl
  have r1 := runT_succ htD (r0 sD)
  have e : 2 * cur.length + 2 = cur.length + (0 + 1 + (cur.length + (0 + 1))) := by omega
  have t1 : trace texts speed pause (0 + 1) sF = [sF] := by
    rw [trace_succ _ htD]; rfl
  have t2 : trace texts speed pause (0 + 1) sZ = [sZ] := by
    rw [trace_succ _ htA]; rfl
  have tr : trace texts speed pause (2 * cur.length + 2) s =
      trace texts speed pause cur.length s ++ ([sF] ++
        (trace texts speed pause cur.length sD ++ [sZ])) := by
    rw [e, trace_append _ _ _ _ _ hrF, trace_append _ _ _ _ _ r1, t1,
      trace_append _ _ _ _ _ hrZ, t2]
  have hdel : ∀ u ∈ trace texts speed pause cur.length sD ++ [sZ], u.deleting = true := by
    intro u hu
    rcases List.mem_append.mp hu with hu | hu
    · exact (htrZ u hu).2
    · rw [List.mem_singleton] at hu
      rw [hu]
      exact hZ.2.2.2
  rcases Nat.eq_zero_or_pos cur.length with hL | hL
  · have hsF : sF = s := by
      rw [hL] at hrF
      simp only [runT, Option.some.injEq, Prod.mk.injEq] at hrF
      exact hrF.1.symm
    have hnil : trace texts speed pause cur.length s = [] := by
      rw [hL]
      rfl
    refine ⟨trace texts speed pause cur.length sD ++ [sZ], ?_, ?_⟩
    · rw [tr, hsF, hnil]
      rfl
    · intro u hu
      exact Or.inr (hdel u hu)
  · obtain ⟨L, hL'⟩ := Nat.exists_eq_succ_of_ne_zero (Nat.pos_iff_ne_zero.mp hL)
    have hlt : ((0 : Nat) : Int) < (cur.length : Int) := by omega
    obtain ⟨s1, ht, h1⟩ := grow_at speed pause (by simpa using h) hcur hlt
    have hlow := grow_seg_lower speed pause hcur L s1 1 (by simpa using h1) (by omega)
    have hcons : trace texts speed pause cur.length s =
        s :: trace texts speed pause L s1 := by
      rw [hL', trace_succ _ ht]
    refine ⟨trace texts speed pause L s1 ++ ([sF] ++
        (trace texts speed pause cur.length sD ++ [sZ])), ?_, ?_⟩
    · rw [tr, hcons, List.cons_append]
    · intro u hu
      rcases List.mem_append.mp hu with hu | hu
      · left
        have := hlow u hu
        omega
      · rcases List.mem_append.mp hu with hu | hu
        · rw [List.mem_singleton] at hu
          left
          rw [hu, hF.2.2.1]
          omega
        · exact Or.inr (hdel u hu)

/-- Before the `k`-th phrase visit (`k` at most the number of phrases) the machine is at
its start position only in the very first state. -/
theorem visits_nonzero {texts : List JSString} (speed pause : ℚ) (hne : texts ≠ [])
    (k : Nat) (hk : k ≤ texts.length) :
    ∀ (m : Nat) (u : TWState),
      (trace texts speed pause (ticksBefore texts k) TWState.init)[m]? = some u →
      m = 0 ∨ ¬ atStart u := by
  have hpos : 0 < texts.length := List.length_pos.mpr hne
  induction k with
  | zero =>
    intro m u hm
    simp [ticksBefore, trace] at hm
  | succ k ih =>
    intro m u hm
    have hklt : k < texts.length := hk
    obtain ⟨s, a, hr, hat, _⟩ := visits speed pause hne k
    have hmod : k % texts.length = k := Nat.mod_eq_of_lt hklt
    rw [hmod] at hat
    have hcur : texts[k]? = some (texts.get ⟨k, hklt⟩) := List.getElem?_eq_getElem hklt
    have hD : texts.getD (k % texts.length) [] = texts.get ⟨k, hklt⟩ := by
      rw [hmod, List.getD_eq_getElem?_getD, hcur]
      rfl
    have hticks : ticksBefore texts (k + 1) =
        ticksBefore texts k + (2 * (texts.get ⟨k, hklt⟩).length + 2) := by
      simp only [ticksBefore, phraseTicks, hD]
    rw [hticks, trace_append _ _ _ _ _ hr] at hm
    by_cases hlt : m < (trace texts speed pause (ticksBefore texts k) TWState.init).length
    · rw [List.getElem?_append_left hlt] at hm
      exact ih (Nat.le_of_lt hklt) m u hm
    · rw [List.getElem?_append_right (Nat.le_of_not_lt hlt)] at hm
      rcases Nat.eq_zero_or_pos k with hk0 | hk0
      · subst hk0
        have hs : s = TWState.init := by
          simp only [ticksBefore, runT, Option.some.injEq, Prod.mk.injEq] at hr
          exact hr.1.symm
        have hlen : (trace texts speed pause (ticksBefore texts 0) TWState.init).length = 0 := rfl
        rw [hlen, Nat.sub_zero] at hm
        obtain ⟨rest, htr, hrest⟩ := visit_tail speed pause hcur s hat
        rw [htr] at hm
        cases m with
        | zero => exact Or.inl rfl
        | succ m =>
          right
          rw [List.getElem?_cons_succ] at hm
          rintro ⟨_, hc, hd⟩
          rcases hrest u (List.getElem?_mem hm) with h1 | h1
          · exact h1 hc
          · rw [hd] at h1
            cases h1
      · right
        obtain ⟨_, _, _, _, _, _, _, _, _, _, _, _, _, _, _, hidx⟩ :=
          phrase_seg speed pause hcur s hat
        rintro ⟨hi, _, _⟩
        have := hidx u (List.getElem?_mem hm)
        omega

/-- The run from mount never fails, and stays among the reachable mounted states. -/
theorem run_total {texts : List JSString} (speed pause : ℚ) (hne : texts ≠ []) (m : Nat) :
    ∃ u a, runT texts speed pause m TWState.init = some (u, a) ∧
      Reachable texts speed pause u ∧ u.mounted = true := by
  induction m with
  | zero => exact ⟨TWState.init, 0, rfl, Reachable.init, rfl⟩
  | succ m ih =>
    obtain ⟨u, a, hr, hreach, hm⟩ := ih
    obtain ⟨s1, he⟩ := effect_total speed pause (Inv.of_reachable hne hreach)
    have ht : tickT texts speed pause u = some (fireNext s1, nextDelay s1) := by
      simp [tickT, he]
    obtain ⟨hreach', hm'⟩ := reachable_tick hreach hm (tick_of_tickT ht)
    exact ⟨fireNext s1, _, runT_trans m 1 _ _ _ _ _ hr (runT_succ ht rfl), hreach', hm'⟩

/-- C18: for a non-empty phrase list with phrase lengths `L_0, ..., L_(n-1)`, after exactly
`N = sum of (2 * L_i + 2)` transitions from mount the machine is back at idx 0, charIdx 0,
growing, with the empty display and no timer pending, as at mount; and after every smaller
positive number of transitions it is in a state that is not at idx 0, charIdx 0, growing. -/
theorem machine_is_periodic (texts : List JSString) (speed pause : ℚ) (hne : texts ≠ []) :
    period texts = (texts.map (fun p => 2 * p.length + 2)).sum ∧
    atStart TWState.init ∧
    (∃ s, run texts speed pause (period texts) TWState.init = some s ∧ atStart s ∧
      s.display = TWState.init.display ∧ s.pending = TWState.init.pending ∧
      s.mounted = TWState.init.mounted) ∧
    ∀ m, 0 < m → m < period texts →
      ∃ u, run texts speed pause m TWState.init = some u ∧ ¬ atStart u := by
  have hpos : 0 < texts.length := List.length_pos.mpr hne
  refine ⟨rfl, ⟨rfl, rfl, rfl⟩, ?_, ?_⟩
  · obtain ⟨k, hk⟩ := Nat.exists_eq_succ_of_ne_zero (Nat.pos_iff_ne_zero.mp hpos)
    have hklt : k < texts.length := by omega
    obtain ⟨s, a, hr, hat, _⟩ := visits speed pause hne k
    have hmod : k % texts.length = k := Nat.mod_eq_of_lt hklt
    rw [hmod] at hat
    have hcur : texts[k]? = some (texts.get ⟨k, hklt⟩) := List.getElem?_eq_getElem hklt
    have hD : texts.getD (k % texts.length) [] = texts.get ⟨k, hklt⟩ := by
      rw [hmod, List.getD_eq_getElem?_getD, hcur]
      rfl
    have hticks : period texts =
        ticksBefore texts k + (2 * (texts.get ⟨k, hklt⟩).length + 2) := by
      have hsucc : ticksBefore texts (k + 1) =
          ticksBefore texts k + (2 * (texts.get ⟨k, hklt⟩).length + 2) := by
        simp only [ticksBefore, phraseTicks, hD]
      have hlen : ticksBefore texts texts.length = ticksBefore texts (k + 1) :=
        congrArg (ticksBefore texts) hk
      rw [← ticksBefore_period, hlen, hsucc]
    obtain ⟨_, _, _, s', _, _, _, _, _, _, _, hA, hdisp, hrun, _⟩ :=
      phrase_seg speed pause hcur s hat
    have hfull := runT_trans _ _ _ _ _ _ _ hr hrun
    rw [← hticks] at hfull
    have hstart : (k + 1) % texts.length = 0 := by
      have hk' : k + 1 = texts.length := hk.symm
      rw [hk']
      exact Nat.mod_self _
    rw [hstart] at hA
    refine ⟨s', run_of_runT hfull, ⟨hA.2.1, hA.2.2.1, hA.2.2.2⟩, hdisp, hA.1, ?_⟩
    exact (reachable_run (period texts) Reachable.init rfl (run_of_runT hfull)).2
  · intro m hm0 hmN
    obtain ⟨u, a, hr, _, _⟩ := run_total speed pause hne m
    refine ⟨u, run_of_runT hr, ?_⟩
    have hget := trace_getElem (period texts) TWState.init u m (run_of_runT hr) hmN
    rw [← ticksBefore_period] at hget
    rcases visits_nonzero speed pause hne texts.length (Nat.le_refl _) m u hget with h0 | h0
    · omega
    · exact h0

theorem machine_is_periodic_witness :
    period phrasesAB = (phrasesAB.map (fun p => 2 * p.length + 2)).sum ∧
    atStart TWState.init ∧
    (∃ s, run phrasesAB 60 2000 (period phrasesAB) TWState.init = some s ∧ atStart s ∧
      s.display = TWState.init.display ∧ s.pending = TWState.init.pending ∧
      s.mounted = TWState.init.mounted) ∧
    ∀ m, 0 < m → m < period phrasesAB →
      ∃ u, run phrasesAB 60 2000 m TWState.init = some u ∧ ¬ atStart u :=
  machine_is_periodic phrasesAB 60 2000 (by decide)

/-! ## Claims: the band and the current region -/

theorem parse_rootMargin :
    parseRootMargin rootMargin =
      some { top := .percent (-40), right := .px 0, bottom := .percent (-55), left := .px 0 } := by
  decide

/-- After a batch the active identifier is the target of its last intersecting entry, or
what it was when the batch has none. -/
theorem observerCallback_last (es : List Entry) :
    ∀ s : AppState, (observerCallback es s).active =
      (((es.filter (fun e => e.isIntersecting)).getLast?).map Entry.targetId).getD s.active := by
  induction es with
  | nil => intro s; rfl
  | cons e es ih =>
    intro s
    rw [observerCallback_cons, ih]
    cases hi : e.isIntersecting
    · simp [List.filter_cons, hi]
    · simp only [List.filter_cons, hi, if_true, List.getLast?_cons, setActive]
      cases (es.filter (fun e => e.isIntersecting)).getLast? <;> rfl

/-- Delivering batches one after the other is one callback on the observed entries of all
of them. -/
theorem afterBatches_flatten (batches : List (List Entry)) :
    ∀ s : AppState, afterBatches batches s =
      observerCallback (batches.flatten.filter (fun e => decide (e.targetId ∈ s.observed))) s := by
  induction batches with
  | nil => intro s; rfl
  | cons b bs ih =>
    intro s
    have e : afterBatches (b :: bs) s = afterBatches bs (hostDeliver b s) := rfl
    have hobs : (hostDeliver b s).observed = s.observed := observerCallback_observed _ _
    rw [e, ih, hobs, List.flatten_cons, List.filter_append, observerCallback_append]
    rfl

theorem afterBatches_append (xs ys : List (List Entry)) (s : AppState) :
    afterBatches (xs ++ ys) s = afterBatches ys (afterBatches xs s) := by
  simp [afterBatches, List.foldl_append]

theorem afterBatches_observed (batches : List (List Entry)) :
    ∀ s : AppState, (afterBatches batches s).observed = s.observed := by
  induction batches with
  | nil => intro s; rfl
  | cons b bs ih =>
    intro s
    have e : afterBatches (b :: bs) s = afterBatches bs (hostDeliver b s) := rfl
    rw [e, ih]
    exact observerCallback_observed _ _

theorem afterBatches_quiet (quiet : List (List Entry)) :
    ∀ s : AppState, (∀ b ∈ quiet, ∀ e ∈ b, e.isIntersecting = false) →
      afterBatches quiet s = s := by
  induction quiet with
  | nil => intro s _; rfl
  | cons b bs ih =>
    intro s h
    have e : afterBatches (b :: bs) s = afterBatches bs (hostDeliver b s) := rfl
    have hb : hostDeliver b s = s :=
      observerCallback_none _ s
        (fun x hx => h b (List.mem_cons_self _ _) x (List.mem_of_mem_filter hx))
    rw [e, hb]
    exact ih s (fun b' hb' => h b' (List.mem_cons_of_mem _ hb'))

/-- C16 as stated fails in its last part: after the batches of scrolling down by 580 and
back to 0 the current region is "experience", which the host last reported as not
intersecting the band, while "home", last reported as intersecting, is not current. -/
theorem stale_section_after_scroll_back :
    (afterBatches (scrollBatches.take 1) trackerStart).active = "home" ∧
    (afterBatches (scrollBatches.take 2) trackerStart).active = "experience" ∧
    (afterBatches scrollBatches trackerStart).active = "experience" ∧
    lastReported scrollBatches "experience" = some false ∧
    lastReported scrollBatches "home" = some true := by
  decide

/-- C16, amended: `rootMargin` "-40% 0px -55% 0px" asks for margins of -40% at the top,
-55% at the bottom and 0px on both sides, which leave 100 - 40 - 55 = 5 percent of the
viewport height; and after any batches the host delivers the current region is the one
most recently reported as intersecting (the initial one if none was): a region becomes
current when it is reported as entering, and stays current through reports that it or
another region has left. -/
theorem current_is_last_entered (s : AppState) (batches : List (List Entry)) :
    parseRootMargin rootMargin =
      some { top := .percent (-40), right := .px 0, bottom := .percent (-55), left := .px 0 } ∧
    (parseRootMargin rootMargin).bind Margin.heightLeft = some 5 ∧
    (afterBatches batches s).active =
      ((((batches.flatten.filter (fun e => decide (e.targetId ∈ s.observed))).filter
        (fun e => e.isIntersecting)).getLast?).map Entry.targetId).getD s.active ∧
    (∀ id, id ∈ s.observed → (afterBatches (batches ++ [[⟨true, id⟩]]) s).active = id) ∧
    (∀ quiet : List (List Entry), (∀ b ∈ quiet, ∀ e ∈ b, e.isIntersecting = false) →
      (afterBatches (batches ++ quiet) s).active = (afterBatches batches s).active) := by
  refine ⟨parse_rootMargin, by rw [parse_rootMargin]; rfl, ?_, ?_, ?_⟩
  · rw [afterBatches_flatten, observerCallback_last]
  · intro id hid
    rw [afterBatches_append]
    have hobs := afterBatches_observed batches s
    have e : afterBatches [[(⟨true, id⟩ : Entry)]] (afterBatches batches s) =
        hostDeliver [⟨true, id⟩] (afterBatches batches s) := rfl
    rw [e]
    simp [hostDeliver, hobs, hid, observerCallback, setActive]
  · intro quiet hq
    rw [afterBatches_append, afterBatches_quiet quiet _ hq]

/-! ## Claims: delays of a phrase visit -/

theorem onVisit_cleanup {texts : List JSString} {speed pause : ℚ} {i : Nat}
    {cur : JSString} {s : TWState} {p : Nat} (h : OnVisit texts speed pause i cur s p) :
    (cleanup s).pending = [] := by
  rcases h.pend with hp | ⟨t, hp, ht, _⟩
  · simp [cleanup, hp, clearTimeout_nil]
  · simp [cleanup, hp, ht, clearTimeout]

/-- Before the last position an effect run keeps the position and leaves exactly the timer
of that position; it is not the advance. -/
theorem onVisit_effect {texts : List JSString} {speed pause : ℚ} {i : Nat}
    {cur : JSString} {s : TWState} {p : Nat} (h : OnVisit texts speed pause i cur s p)
    (hp : p < 2 * cur.length + 1) :
    advanceCond s = false ∧
    ∃ s1, runEffect texts speed pause s = some s1 ∧ OnVisit texts speed pause i cur s1 p ∧
      ∃ t, s1.pending = [t] ∧ t.handle = s.nextHandle ∧ s1.nextHandle = s.nextHandle + 1 ∧
        t.delay = expectedDelay cur.length speed pause p := by
  have hcl := onVisit_cleanup h
  have hcur : texts[s.idx]? = some cur := by rw [h.idx_eq]; exact h.cur_eq
  rcases Nat.lt_trichotomy p cur.length with hlt | heq | hgt
  · obtain ⟨hd, hc⟩ := h.grow (Nat.le_of_lt hlt)
    have hc' : s.charIdx < (cur.length : Int) := by rw [hc]; exact_mod_cast hlt
    refine ⟨by simp [advanceCond, hd], _, runEffect_grow hcl hcur hd hc', ?_, _, rfl, rfl, rfl, ?_⟩
    · exact ⟨h.cur_eq, h.idx_eq, h.pos_le, h.grow, h.shrink,
        Or.inr ⟨_, rfl, rfl, Nat.lt_succ_self _, hp, by simp [expectedCallback, hlt],
          by simp [expectedDelay, hlt]⟩⟩
    · simp [expectedDelay, hlt]
  · obtain ⟨hd, hc⟩ := h.grow (Nat.le_of_eq heq)
    have hc' : s.charIdx = (cur.length : Int) := by rw [hc, heq]
    refine ⟨by simp [advanceCond, hd], _, runEffect_pause hcl hcur hd hc', ?_, _, rfl, rfl, rfl, ?_⟩
    · exact ⟨h.cur_eq, h.idx_eq, h.pos_le, h.grow, h.shrink,
        Or.inr ⟨_, rfl, rfl, Nat.lt_succ_self _, hp, by simp [expectedCallback, heq],
          by simp [expectedDelay, heq]⟩⟩
    · simp [expectedDelay, heq]
  · obtain ⟨hd, hc⟩ := h.shrink hgt
    have hc' : 0 < s.charIdx := by rw [hc]; omega
    have hn1 : ¬ p < cur.length := by omega
    have hn2 : ¬ p = cur.length := by omega
    have hne : ¬ s.charIdx = 0 := by omega
    refine ⟨by simp [advanceCond, hd, hne], _, runEffect_shrink hcl hcur hd hc', ?_, _, rfl, rfl,
      rfl, ?_⟩
    · exact ⟨h.cur_eq, h.idx_eq, h.pos_le, h.grow, h.shrink,
        Or.inr ⟨_, rfl, rfl, Nat.lt_succ_self _, hp, by simp [expectedCallback, hn1, hn2],
          by simp [expectedDelay, hn1, hn2]⟩⟩
    · simp [expectedDelay, hn1, hn2]

/-- The timer that fires at position `p` has the delay of that position and moves the
typewriter to position `p + 1` with no timer pending. -/
theorem onVisit_fire {texts : List JSString} {speed pause : ℚ} {i : Nat}
    {cur : JSString} {s : TWState} {p : Nat} {t : Timer} {ts : List Timer}
    (h : OnVisit texts speed pause i cur s p) (hpe : s.pending = t :: ts) :
    t.delay = expectedDelay cur.length speed pause p ∧ ts = [] ∧
    (fire t s).pending = [] ∧
    OnVisit texts speed pause i cur (fire t s) (p + 1) := by
  rcases h.pend with hp | ⟨u, hp, _, _, hlt, hcb, hdl⟩
  · rw [hp] at hpe
    cases hpe
  · rw [hp] at hpe
    obtain ⟨rfl, rfl⟩ := List.cons.inj hpe
    have hfil : s.pending.filter (fun v => v.handle != u.handle) = [] := by simp [hp]
    have e : fire u s = applyCallback u.callback
        { s with pending := s.pending.filter (fun v => v.handle != u.handle) } := rfl
    refine ⟨hdl, rfl, ?_, ?_⟩
    · rw [e, hfil]
      cases u.callback <;> rfl
    · rw [e, hfil]
      rcases Nat.lt_trichotomy p cur.length with hl | heq | hgt
      · obtain ⟨hd, hc⟩ := h.grow (Nat.le_of_lt hl)
        have hcbv : u.callback = .incChar := by
          rw [hcb]; unfold expectedCallback; rw [if_pos hl]
        rw [hcbv]
        exact ⟨h.cur_eq, h.idx_eq, by omega,
          fun _ => ⟨hd, by show s.charIdx + 1 = _; rw [hc]; push_cast; rfl⟩,
          fun hh => by omega, Or.inl rfl⟩
      · obtain ⟨hd, hc⟩ := h.grow (Nat.le_of_eq heq)
        have hn1 : ¬ p < cur.length := by omega
        have hcbv : u.callback = .startDeleting := by
          rw [hcb]; unfold expectedCallback; rw [if_neg hn1, if_pos heq]
        rw [hcbv]
        exact ⟨h.cur_eq, h.idx_eq, by omega, fun hh => by omega,
          fun _ => ⟨rfl, by show s.charIdx = _; rw [hc]; congr 1; omega⟩, Or.inl rfl⟩
      · obtain ⟨hd, hc⟩ := h.shrink hgt
        have hn1 : ¬ p < cur.length := by omega
        have hn2 : ¬ p = cur.length := by omega
        have hcbv : u.callback = .decChar := by
          rw [hcb]; unfold expectedCallback; rw [if_neg hn1, if_neg hn2]
        rw [hcbv]
        exact ⟨h.cur_eq, h.idx_eq, by omega, fun hh => by omega,
          fun _ => ⟨hd, by show s.charIdx - 1 = _; rw [hc]; omega⟩, Or.inl rfl⟩

theorem atPos_onVisit {texts : List JSString} (speed pause : ℚ) {i : Nat} {cur : JSString}
    {s : TWState} (h : AtPos s i 0 false) (hcur : texts[i]? = some cur) :
    OnVisit texts speed pause i cur s 0 :=
  ⟨hcur, h.2.1, Nat.zero_le _, fun _ => ⟨h.2.2.2, h.2.2.1⟩, fun hh => absurd hh (Nat.not_lt_zero _),
    Or.inl h.1⟩

/-- Along every schedule without an advance the timers that fire are those of the
consecutive positions, and each of them was pending at the start or scheduled on the way. -/
theorem exec_onVisit {texts : List JSString} (speed pause : ℚ) {i : Nat} {cur : JSString}
    (evs : List TWEvent) :
    ∀ (s : TWState) (p : Nat) (r : TWState × List ℚ × List ℚ),
      OnVisit texts speed pause i cur s p → exec texts speed pause evs s = some r →
      noAdvance texts speed pause evs s = true →
      ∃ k, OnVisit texts speed pause i cur r.1 (p + k) ∧
        r.2.2 = (List.range' p k).map (expectedDelay cur.length speed pause) ∧
        List.Sublist r.2.2 (s.pending.map Timer.delay ++ r.2.1) := by
  induction evs with
  | nil =>
    intro s p r h hex _
    simp only [exec, Option.some.injEq] at hex
    subst hex
    exact ⟨0, h, rfl, List.nil_sublist _⟩
  | cons ev evs ih =>
    intro s p r h hex hno
    cases ev with
    | effect =>
      simp only [noAdvance, decide_True, Bool.true_and, Bool.and_eq_true, Bool.not_eq_true',
        stepEvent] at hno
      have hp : p < 2 * cur.length + 1 := by
        rcases Nat.lt_or_ge p (2 * cur.length + 1) with hlt | hge
        · exact hlt
        · have hpe : p = 2 * cur.length + 1 := Nat.le_antisymm h.pos_le hge
          obtain ⟨hd, hc⟩ := h.shrink (by omega)
          have hc0 : s.charIdx = 0 := by rw [hc, hpe]; simp
          have : advanceCond s = true := by simp [advanceCond, hd, hc0]
          rw [this] at hno
          exact absurd hno.1 (by decide)
      obtain ⟨_, s1, he, h1, t, hpe1, hth, _, htd⟩ := onVisit_effect h hp
      rw [he] at hno
      simp only [exec, stepEvent, he] at hex
      cases hr : exec texts speed pause evs s1 with
      | none => rw [hr] at hex; cases hex
      | some r1 =>
        rw [hr] at hex
        simp only [Option.some.injEq] at hex
        subst hex
        obtain ⟨k, hk, hfi, hsub⟩ := ih s1 p r1 h1 hr hno.2
        refine ⟨k, hk, by simpa [firedBy] using hfi, ?_⟩
        have hsch : scheduledBy texts speed pause s TWEvent.effect = [t.delay] := by
          simp [scheduledBy, he, hpe1, hth]
        rw [hpe1] at hsub
        show List.Sublist (firedBy s TWEvent.effect ++ r1.2.2)
          (s.pending.map Timer.delay ++ (scheduledBy texts speed pause s TWEvent.effect ++ r1.2.1))
        rw [hsch]
        exact List.sublist_append_of_sublist_right hsub
    | fire =>
      cases hpend : s.pending with
      | nil => simp [exec, stepEvent, hpend] at hex
      | cons t ts =>
        obtain ⟨htd, hts, _, h1⟩ := onVisit_fire h hpend
        subst hts
        simp only [noAdvance, stepEvent, hpend] at hno
        simp only [exec, stepEvent, hpend] at hex
        cases hr : exec texts speed pause evs (fire t s) with
        | none => rw [hr] at hex; cases hex
        | some r1 =>
          rw [hr] at hex
          simp only [Option.some.injEq] at hex
          subst hex
          have hno' : noAdvance texts speed pause evs (fire t s) = true := by
            simpa using hno
          obtain ⟨k, hk, hfi, hsub⟩ := ih (fire t s) (p + 1) r1 h1 hr hno'
          have hfp : (fire t s).pending = [] := (onVisit_fire h hpend).2.2.1
          rw [hfp] at hsub
          refine ⟨k + 1, ?_, ?_, ?_⟩
          · rw [show p + (k + 1) = p + 1 + k by omega]
            exact hk
          · show firedBy s TWEvent.fire ++ r1.2.2 = _
            rw [List.range'_succ, List.map_cons, ← hfi, ← htd]
            simp [firedBy, hpend]
          · show List.Sublist (firedBy s TWEvent.fire ++ r1.2.2)
              (List.map Timer.delay [t] ++ (scheduledBy texts speed pause s TWEvent.fire ++ r1.2.1))
            have : firedBy s TWEvent.fire = [t.delay] := by simp [firedBy, hpend]
            rw [this]
            exact List.Sublist.cons₂ _ (by simpa [scheduledBy] using hsub)

/-- When every effect run is followed by the firing of its timer, the timers scheduled are
the timers that fire. -/
theorem exec_alternating {texts : List JSString} (speed pause : ℚ) {i : Nat}
    {cur : JSString} (n : Nat) :
    ∀ (s : TWState) (p : Nat) (r : TWState × List ℚ × List ℚ),
      OnVisit texts speed pause i cur s p →
      exec texts speed pause
        (List.replicate n [TWEvent.effect, TWEvent.fire]).flatten s = some r →
      noAdvance texts speed pause
        (List.replicate n [TWEvent.effect, TWEvent.fire]).flatten s = true →
      r.2.1 = r.2.2 := by
  induction n with
  | zero =>
    intro s p r _ hex _
    simp only [List.replicate_zero, List.flatten_nil, exec, Option.some.injEq] at hex
    subst hex
    rfl
  | succ n ih =>
    intro s p r h hex hno
    rw [List.replicate_succ, List.flatten_cons] at hex hno
    simp only [List.cons_append, List.nil_append] at hex hno
    simp only [noAdvance, decide_True, Bool.true_and, Bool.and_eq_true, Bool.not_eq_true',
      stepEvent] at hno
    have hp : p < 2 * cur.length + 1 := by
      rcases Nat.lt_or_ge p (2 * cur.length + 1) with hlt | hge
      · exact hlt
      · have hpe : p = 2 * cur.length + 1 := Nat.le_antisymm h.pos_le hge
        obtain ⟨hd, hc⟩ := h.shrink (by omega)
        have hc0 : s.charIdx = 0 := by rw [hc, hpe]; simp
        have : advanceCond s = true := by simp [advanceCond, hd, hc0]
        rw [this] at hno
        exact absurd hno.1 (by decide)
    obtain ⟨_, s1, he, h1, t, hpe1, hth, _, _⟩ := onVisit_effect h hp
    have hfp := onVisit_fire h1 hpe1
    rw [he] at hno
    simp only [hpe1] at hno
    have hno' : noAdvance texts speed pause
        (List.replicate n [TWEvent.effect, TWEvent.fire]).flatten (fire t s1) = true := by
      simpa using hno.2
    simp only [exec, stepEvent, he, hpe1] at hex
    cases hr : exec texts speed pause
        (List.replicate n [TWEvent.effect, TWEvent.fire]).flatten (fire t s1) with
    | none => rw [hr] at hex; cases hex
    | some r1 =>
      rw [hr] at hex
      simp only [Option.some.injEq] at hex
      subst hex
      have := ih (fire t s1) (p + 1) r1 hfp.2.2.2 hr hno'
      have hsch : scheduledBy texts speed pause s TWEvent.effect = [t.delay] := by
        simp [scheduledBy, he, hpe1, hth]
      show scheduledBy texts speed pause s TWEvent.effect ++
          (scheduledBy texts speed pause s1 TWEvent.fire ++ r1.2.1) =
        firedBy s TWEvent.effect ++ (firedBy s1 TWEvent.fire ++ r1.2.2)
      rw [hsch, this]
      simp [scheduledBy, firedBy, hpe1]

/-- The delays of the positions of a whole visit. -/
theorem visit_delay_list (L : Nat) (speed pause : ℚ) :
    (List.range' 0 (2 * L + 1)).map (expectedDelay L speed pause) =
      List.replicate L speed ++ pause :: List.replicate L (speed / 2) := by
  have e : List.range' 0 (2 * L + 1) = List.range' 0 L ++ (L :: List.range' (L + 1) L) := by
    rw [← List.range'_succ, show 2 * L + 1 = L + 1 + L by omega]
    simpa using (List.range'_append_1 0 L (L + 1)).symm
  rw [e, List.map_append, List.map_cons]
  congr 1
  · rw [List.eq_replicate_iff]
    refine ⟨by simp, ?_⟩
    intro b hb
    obtain ⟨j, hj, rfl⟩ := List.mem_map.mp hb
    have : j < L := by simpa using hj
    simp [expectedDelay, this]
  · congr 1
    · simp [expectedDelay]
    · rw [List.eq_replicate_iff]
      refine ⟨by simp, ?_⟩
      intro b hb
      obtain ⟨j, hj, rfl⟩ := List.mem_map.mp hb
      have hj' : L + 1 ≤ j ∧ j < L + 1 + L := by simpa using hj
      have h1 : ¬ j < L := by omega
      have h2 : ¬ j = L := by omega
      simp [expectedDelay, h1, h2]

/-- C3 as stated fails: on `["abc"]` with speed 60 and pause 2000 the hook, called as in
`Hero` with an array that is fresh on every render, schedules twelve timers between
entering `(idx 0, charIdx 0, growing)` and the advance, with delays summing to 4450, not
seven timers summing to `3 * 60 + 2000 + 3 * 30 = 2270`. -/
theorem hero_schedules_twelve_timers :
    exec phrasesABC 60 2000 heroSchedule TWState.init = some heroRecord ∧
    noAdvance phrasesABC 60 2000 heroSchedule TWState.init = true ∧
    advanceCond heroRecord.1 = true ∧
    heroRecord.2.1 = [60, 60, 60, 60, 60, 2000, 2000, 30, 30, 30, 30, 30] ∧
    heroRecord.2.1.length = 12 ∧ heroRecord.2.1.sum = 4450 ∧
    heroRecord.2.1.sum ≠ 3 * 60 + 2000 + 3 * (60 / 2) ∧
    heroRecord.2.2.length = 7 ∧ heroRecord.2.2.sum = 2270 := by
  decide!

/-- C3, amended: entered at `(idx, charIdx 0, growing)` with no timer pending, along every
schedule of effect runs and timer firings that leads up to the advance, the timers that
fire are `L` of delay `speed`, one of delay `pause` and `L` of delay `speed / 2`, in this
order, `2 * L + 1` in all, with delays summing to `L * speed + pause + L * (speed / 2)`;
each of them is among the timers scheduled (every other scheduled timer was cancelled by
the cleanup of a later effect run), and when every effect run is followed by the firing of
its timer, as with a `texts` that keeps its identity, no other timer is scheduled; `idx` is
still unchanged, and the advance itself moves `idx` to the next phrase, schedules no timer
and fires none. -/
theorem fired_delays_of_visit (texts : List JSString) (speed pause : ℚ) (s : TWState)
    (i : Nat) (cur : JSString) (evs : List TWEvent) (r : TWState × List ℚ × List ℚ)
    (hs : AtPos s i 0 false) (hcur : texts[i]? = some cur)
    (hex : exec texts speed pause evs s = some r)
    (hno : noAdvance texts speed pause evs s = true) (hadv : advanceCond r.1 = true) :
    r.2.2 = List.replicate cur.length speed ++ pause :: List.replicate cur.length (speed / 2) ∧
    r.2.2.sum = cur.length * speed + pause + cur.length * (speed / 2) ∧
    r.2.2.length = 2 * cur.length + 1 ∧
    List.Sublist r.2.2 r.2.1 ∧
    (∀ n, evs = (List.replicate n [TWEvent.effect, TWEvent.fire]).flatten → r.2.1 = r.2.2) ∧
    r.1.idx = i ∧
    ∃ s2, stepEvent texts speed pause r.1 TWEvent.effect = some s2 ∧
      s2.idx = (i + 1) % texts.length ∧ s2.charIdx = 0 ∧ s2.deleting = false ∧
      scheduledBy texts speed pause r.1 TWEvent.effect = [] ∧
      firedBy r.1 TWEvent.effect = [] := by
  obtain ⟨k, hk, hfi, hsub⟩ :=
    exec_onVisit speed pause evs s 0 r (atPos_onVisit speed pause hs hcur) hex hno
  rw [hs.1] at hsub
  rw [Nat.zero_add] at hk
  simp only [advanceCond, Bool.and_eq_true, decide_eq_true_eq] at hadv
  have hkL : cur.length < k := by
    rcases Nat.lt_or_ge cur.length k with hlt | hge
    · exact hlt
    · have := (hk.grow hge).1
      rw [this] at hadv
      exact absurd hadv.1 (by decide)
  have hkeq : k = 2 * cur.length + 1 := by
    have hc := (hk.shrink hkL).2
    have hle := hk.pos_le
    rw [hadv.2] at hc
    omega
  subst hkeq
  have hlist := hfi.trans (visit_delay_list cur.length speed pause)
  have hpend : r.1.pending = [] := by
    rcases hk.pend with hp | ⟨t, _, _, _, hlt, _⟩
    · exact hp
    · exact absurd hlt (Nat.lt_irrefl _)
  have hcur' : texts[r.1.idx]? = some cur := by rw [hk.idx_eq]; exact hcur
  have hadvE := @runEffect_advance texts speed pause r.1 cur (onVisit_cleanup hk) hcur'
    hadv.1 hadv.2
  refine ⟨hlist, ?_, ?_, by simpa using hsub, ?_, hk.idx_eq, _, hadvE, ?_, hadv.2, rfl, ?_,
    rfl⟩
  · rw [hlist]
    simp only [List.sum_append, List.sum_cons, List.sum_replicate, nsmul_eq_mul]
    ring
  · rw [hlist]
    simp only [List.length_append, List.length_cons, List.length_replicate]
    omega
  · intro n hn
    subst hn
    exact exec_alternating speed pause n s 0 r (atPos_onVisit speed pause hs hcur) hex hno
  · show (r.1.idx + 1) % texts.length = _
    rw [hk.idx_eq]
  · simp [scheduledBy, hadvE]

theorem fired_delays_of_visit_witness :
    stableRecord.2.2 =
      List.replicate (['a', 'b', 'c'] : JSString).length 60 ++
        2000 :: List.replicate (['a', 'b', 'c'] : JSString).length (60 / 2) ∧
    stableRecord.2.2.sum =
      ((['a', 'b', 'c'] : JSString).length : ℚ) * 60 + 2000 +
        ((['a', 'b', 'c'] : JSString).length : ℚ) * (60 / 2) ∧
    stableRecord.2.2.length = 2 * (['a', 'b', 'c'] : JSString).length + 1 ∧
    List.Sublist stableRecord.2.2 stableRecord.2.1 ∧
    (∀ n, stableSchedule = (List.replicate n [TWEvent.effect, TWEvent.fire]).flatten →
      stableRecord.2.1 = stableRecord.2.2) ∧
    stableRecord.1.idx = 0 ∧
    ∃ s2, stepEvent phrasesABC 60 2000 stableRecord.1 TWEvent.effect = some s2 ∧
      s2.idx = (0 + 1) % phrasesABC.length ∧ s2.charIdx = 0 ∧ s2.deleting = false ∧
      scheduledBy phrasesABC 60 2000 stableRecord.1 TWEvent.effect = [] ∧
      firedBy stableRecord.1 TWEvent.effect = [] :=
  fired_delays_of_visit phrasesABC 60 2000 TWState.init 0 ['a', 'b', 'c'] stableSchedule
    stableRecord AtPos.at_mount rfl (by decide!) (by decide) (by decide)

end Portfolio
